import Mathlib

/-!
# TP Compatibility Editor — verification of the edit and persistence core

Shallow embedding of `src/routes/+page.svelte` (the full Tauri variant, which
is the variant all claims cite). JSON documents are modelled by `JVal`
(ordered object fields, integral numbers — the document format's numeric
fields are enum ordinals). Host primitives that the component calls
(`JSON.parse`, `JSON.stringify(x, null, 2)`, `String.prototype.localeCompare`,
`parseInt`, `Array.prototype.splice`) are modelled faithfully for the value
fragment the document format uses; each model notes its boundary in its doc
comment. The filesystem and the file dialog are passed in as explicit
capabilities (`readFile : String → Option String`, `dialogPick`), matching the
spec's treatment of them as external collaborators.
-/

namespace TPCE

/-- A JSON-ish runtime value. `obj` keeps its fields in insertion order, as a
JavaScript object does. `nan` is the JS `NaN` a field can receive from
`parseInt` on non-numeric text; `JSON.parse` never produces it and
`JSON.stringify` serializes it as `null`. Numbers are integral (the document
format's numbers are enum ordinals). -/
inductive JVal where
  | null
  | bool (b : Bool)
  | num (n : Int)
  | nan
  | str (s : String)
  | arr (elems : List JVal)
  | obj (fields : List (String × JVal))

/-- JS object property read: first binding of the key (an object built by JS
semantics never holds a duplicate key). -/
def lookupField : List (String × JVal) → String → Option JVal
  | [], _ => none
  | (k, v) :: rest, key => if k = key then some v else lookupField rest key

/-- JS object property write: an existing key keeps its position and gets the
new value; a fresh key is appended at the end of the insertion order. -/
def setKey : List (String × JVal) → String → JVal → List (String × JVal)
  | [], k, v => [(k, v)]
  | (k', v') :: rest, k, v =>
    if k' = k then (k, v) :: rest else (k', v') :: setKey rest k v

/-- Property read on a record value (`r[k]`); `none` both for a missing key
and for a non-object receiver. -/
def getRecField (r : JVal) (k : String) : Option JVal :=
  match r with
  | .obj fs => lookupField fs k
  | _ => none

/-- Property write on a record value (`r[k] = v`); leaves a non-object
receiver unchanged (the UI only writes to records, which are objects). -/
def setRecField (r : JVal) (k : String) (v : JVal) : JVal :=
  match r with
  | .obj fs => .obj (setKey fs k v)
  | _ => r

/-- The record's named list field, as read by the spread `[...rec[field]]`;
defaults to `[]` for a missing or non-array field (the UI only spreads the
record's array fields). -/
def getArrField (r : JVal) (k : String) : List JVal :=
  match getRecField r k with
  | some (.arr xs) => xs
  | _ => []

/-! ## Characters, case-insensitive comparison, `localeCompare` -/

/-- JSON whitespace (also what `parseInt` skips). -/
def isWsChar (c : Char) : Bool :=
  c = ' ' || c = '\t' || c = '\n' || c = '\r'

def isDigitChar (c : Char) : Bool :=
  48 ≤ c.toNat && c.toNat ≤ 57

def isHexDigitChar (c : Char) : Bool :=
  isDigitChar c || (97 ≤ c.toNat && c.toNat ≤ 102) || (65 ≤ c.toNat && c.toNat ≤ 70)

/-- Strict lexicographic order on character lists by code point. -/
def ltChars : List Char → List Char → Bool
  | [], [] => false
  | [], _ :: _ => true
  | _ :: _, [] => false
  | a :: as, b :: bs =>
    if a < b then true else if b < a then false else ltChars as bs

/-- The case-insensitive collation key of a string (per-character lowercase). -/
def ciKey (s : String) : List Char :=
  s.data.map Char.toLower

/-- Model of `String.prototype.localeCompare` under the default (ICU root)
collation, for the ASCII fragment game names use: primary weight is the
case-insensitive comparison; strings equal up to case are tie-broken with
lowercase before uppercase (the reverse of code-point order on ASCII
letters). -/
def jsLocaleCompare (a b : String) : Ordering :=
  if ltChars (ciKey a) (ciKey b) then .lt
  else if ltChars (ciKey b) (ciKey a) then .gt
  else if ltChars b.data a.data then .lt
  else if ltChars a.data b.data then .gt
  else .eq

/-- Decimal digits of `n`, most significant first (for number-to-string
coercion and for the serializer). -/
def natChars (n : Nat) : List Char :=
  if n = 0 then ['0']
  else ((Nat.digits 10 n).map (fun d => Char.ofNat (48 + d))).reverse

def intChars (n : Int) : List Char :=
  if n < 0 then '-' :: natChars n.natAbs else natChars n.natAbs

/-- JS `ToString` of an array element inside `Array.prototype.join`: `null`
and holes become the empty string; nested arrays join recursively (fuelled;
the canonical wrapper `jsArgToStr` gives depth 100, far beyond any document
value — name fields in the document format are strings, so this coercion
only decides comparisons against malformed records). -/
def elemStr : Nat → JVal → String
  | _, .null => ""
  | _, .bool true => "true"
  | _, .bool false => "false"
  | _, .num n => String.mk (intChars n)
  | _, .nan => "NaN"
  | _, .str s => s
  | 0, .arr _ => ""
  | f + 1, .arr xs => String.intercalate "," (xs.map (elemStr f))
  | _, .obj _ => "[object Object]"

/-- JS `ToString` of the argument handed to `localeCompare` (the other
record's `Name` property): a missing property is `undefined`, which coerces
to the string "undefined". -/
def jsArgToStr : Option JVal → String
  | none => "undefined"
  | some .null => "null"
  | some (.bool true) => "true"
  | some (.bool false) => "false"
  | some (.num n) => String.mk (intChars n)
  | some .nan => "NaN"
  | some (.str s) => s
  | some (.arr xs) => String.intercalate "," (xs.map (elemStr 100))
  | some (.obj _) => "[object Object]"

/-- The sort comparator `(a, b) => a.Name.localeCompare(b.Name)` from
`loadJsonData`. Calling `localeCompare` on a receiver that is not a string
(missing `Name`, or `Name` of another type) throws a `TypeError`, modelled as
`Except.error`; a non-string argument is coerced to a string. -/
def cmpRec (a b : JVal) : Except Unit Ordering :=
  match getRecField a "Name" with
  | some (.str sa) => .ok (jsLocaleCompare sa (jsArgToStr (getRecField b "Name")))
  | _ => .error ()

/-! ## Sorting (`Array.prototype.sort`, stable since ES2019)

Modelled as a stable insertion sort threaded through `Except`, so that a
`TypeError` raised by the comparator aborts the sort (and with it the whole
load). For a consistent comparator this computes the unique stable sorted
permutation, which is what the ECMAScript specification guarantees. -/

def insertE (cmp : α → α → Except Unit Ordering) (x : α) :
    List α → Except Unit (List α)
  | [] => .ok [x]
  | y :: ys =>
    match cmp x y with
    | .error e => .error e
    | .ok .gt =>
      match insertE cmp x ys with
      | .error e => .error e
      | .ok r => .ok (y :: r)
    | .ok _ => .ok (x :: y :: ys)

def sortE (cmp : α → α → Except Unit Ordering) :
    List α → Except Unit (List α)
  | [] => .ok []
  | x :: xs =>
    match sortE cmp xs with
    | .error e => .error e
    | .ok r => insertE cmp x r

/-- Pure stable insertion sort (the effect-free skeleton of `sortE`, used to
state and prove its order properties). -/
def insertP (cmp : α → α → Ordering) (x : α) : List α → List α
  | [] => [x]
  | y :: ys => if cmp x y = .gt then y :: insertP cmp x ys else x :: y :: ys

def sortP (cmp : α → α → Ordering) : List α → List α
  | [] => []
  | x :: xs => insertP cmp x (sortP cmp xs)

/-! ## `parseInt` -/

def digitsToNat (ds : List Char) : Nat :=
  ds.foldl (fun a c => 10 * a + (c.toNat - 48)) 0

def hexVal (c : Char) : Nat :=
  if isDigitChar c then c.toNat - 48
  else if 97 ≤ c.toNat then c.toNat - 87
  else c.toNat - 55

def hexToNat (ds : List Char) : Nat :=
  ds.foldl (fun a c => 16 * a + hexVal c) 0

/-- Model of JS `parseInt(s)` (no explicit radix): skip leading whitespace,
read an optional sign, detect a `0x`/`0X` prefix (radix 16), then take the
longest run of digits of the radix; `none` is `NaN` (no digits found). -/
def jsParseInt (s : String) : Option Int :=
  let core : List Char → Option Nat := fun cs =>
    match cs with
    | '0' :: x :: rest =>
      if x = 'x' || x = 'X' then
        let ds := rest.takeWhile isHexDigitChar
        if ds.isEmpty then none else some (hexToNat ds)
      else some (digitsToNat (('0' :: x :: rest).takeWhile isDigitChar))
    | cs =>
      let ds := cs.takeWhile isDigitChar
      if ds.isEmpty then none else some (digitsToNat ds)
  match s.data.dropWhile isWsChar with
  | '-' :: rest => (core rest).map (fun n => -(n : Int))
  | '+' :: rest => (core rest).map (fun n => (n : Int))
  | rest => (core rest).map (fun n => (n : Int))

/-! ## Serializer: `JSON.stringify(value, null, 2)` -/

/-- Lowercase hex digit. -/
def hexDigitChar (n : Nat) : Char :=
  if n < 10 then Char.ofNat (48 + n) else Char.ofNat (87 + n)

def hex4 (n : Nat) : List Char :=
  [hexDigitChar (n / 4096 % 16), hexDigitChar (n / 256 % 16),
   hexDigitChar (n / 16 % 16), hexDigitChar (n % 16)]

/-- `JSON.stringify`'s escaping of one string character. -/
def escChar (c : Char) : List Char :=
  if c = '"' then ['\\', '"']
  else if c = '\\' then ['\\', '\\']
  else if c = Char.ofNat 8 then ['\\', 'b']
  else if c = Char.ofNat 9 then ['\\', 't']
  else if c = Char.ofNat 10 then ['\\', 'n']
  else if c = Char.ofNat 12 then ['\\', 'f']
  else if c = Char.ofNat 13 then ['\\', 'r']
  else if c.toNat < 32 then '\\' :: 'u' :: hex4 c.toNat
  else [c]

def quoteStr (s : String) : List Char :=
  '"' :: (s.data.map escChar).flatten ++ ['"']

/-- Indentation for nesting depth `d` with the 2-space gap of
`JSON.stringify(x, null, 2)`. -/
def indentChars (d : Nat) : List Char :=
  List.replicate (2 * d) ' '

/-- One line per entry: indent, the entry, and `,\n` between entries. -/
def sepJoin (ind : List Char) : List (List Char) → List Char
  | [] => []
  | [a] => ind ++ a
  | a :: rest => ind ++ a ++ ',' :: '\n' :: sepJoin ind rest

/-- `JSON.stringify(v, null, 2)` at nesting depth `d`: objects keep their
insertion key order (never alphabetized), arrays and objects put one entry
per line, `NaN` serializes as `null`. -/
def renderV (d : Nat) (v : JVal) : List Char :=
  match v with
  | .null => ['n', 'u', 'l', 'l']
  | .nan => ['n', 'u', 'l', 'l']
  | .bool true => 't' :: ['r', 'u', 'e']
  | .bool false => 'f' :: ['a', 'l', 's', 'e']
  | .num n => intChars n
  | .str s => quoteStr s
  | .arr [] => ['[', ']']
  | .arr (x :: xs) => '[' :: '\n' ::
      sepJoin (indentChars (d + 1))
        (((x :: xs).attach).map (fun y => renderV (d + 1) y.1)) ++
      '\n' :: indentChars d ++ [']']
  | .obj [] => [Char.ofNat 123, Char.ofNat 125]
  | .obj (f :: fs) => Char.ofNat 123 :: '\n' ::
      sepJoin (indentChars (d + 1))
        (((f :: fs).attach).map
          (fun kv => quoteStr kv.1.1 ++ ':' :: ' ' :: renderV (d + 1) kv.1.2)) ++
      '\n' :: indentChars d ++ [Char.ofNat 125]
termination_by sizeOf v
decreasing_by
  · have h1 := List.sizeOf_lt_of_mem y.2
    simp only [JVal.arr.sizeOf_spec]
    omega
  · have h1 := List.sizeOf_lt_of_mem kv.2
    have h2 : sizeOf kv.1.2 < sizeOf kv.1 := by
      obtain ⟨a, b⟩ := kv.1
      simp only [Prod.mk.sizeOf_spec]
      omega
    simp only [JVal.obj.sizeOf_spec]
    omega

/-- The exact text `JSON.stringify(v, null, 2)` produces. -/
def stringifyTxt (v : JVal) : String :=
  String.mk (renderV 0 v)

/-! ## Parser: `JSON.parse`, for the integral-number fragment

Fuelled (one unit per grammar step); the canonical wrapper hands it
`2 * length + 2` units, enough for every document whose nesting the fuel
bound below covers — in particular for everything `stringifyTxt` emits,
which is what the round-trip theorem proves. -/

def skipWs (cs : List Char) : List Char :=
  cs.dropWhile isWsChar

/-- Decode a single-letter JSON escape. -/
def escDecode (e : Char) : Option Char :=
  if e = '"' then some '"'
  else if e = '\\' then some '\\'
  else if e = '/' then some '/'
  else if e = 'b' then some (Char.ofNat 8)
  else if e = 'f' then some (Char.ofNat 12)
  else if e = 'n' then some (Char.ofNat 10)
  else if e = 'r' then some (Char.ofNat 13)
  else if e = 't' then some (Char.ofNat 9)
  else none

/-- Body of a JSON string after the opening quote: the decoded characters and
the rest of the input after the closing quote. -/
def parseStrBody : List Char → Option (List Char × List Char)
  | [] => none
  | c :: rest =>
    if c = '"' then some ([], rest)
    else if c = '\\' then
      match rest with
      | [] => none
      | e :: rest1 =>
        if e = 'u' then
          match rest1 with
          | h1 :: h2 :: h3 :: h4 :: rest2 =>
            if isHexDigitChar h1 && isHexDigitChar h2 && isHexDigitChar h3 &&
                isHexDigitChar h4 then
              match parseStrBody rest2 with
              | some (s, r) => some (Char.ofNat (hexToNat [h1, h2, h3, h4]) :: s, r)
              | none => none
            else none
          | _ => none
        else
          match escDecode e with
          | some d =>
            match parseStrBody rest1 with
            | some (s, r) => some (d :: s, r)
            | none => none
          | none => none
    else
      match parseStrBody rest with
      | some (s, r) => some (c :: s, r)
      | none => none

/-- A JSON number token (integral fragment). -/
def parseNumFrom (cs : List Char) : Option (JVal × List Char) :=
  match cs with
  | [] => none
  | c :: rest =>
    if c = '-' then
      let ds := rest.takeWhile isDigitChar
      if ds.isEmpty then none
      else some (.num (-(digitsToNat ds : Int)), rest.dropWhile isDigitChar)
    else
      let ds := (c :: rest).takeWhile isDigitChar
      if ds.isEmpty then none
      else some (.num (digitsToNat ds : Int), (c :: rest).dropWhile isDigitChar)

/-- Fold parsed key/value pairs into an object with JS property-assignment
semantics (a duplicate key overwrites in place, keeping the first position). -/
def objFromPairs (prs : List (String × JVal)) : List (String × JVal) :=
  prs.foldl (fun acc kv => setKey acc kv.1 kv.2) []

mutual

def parseVF : Nat → List Char → Option (JVal × List Char)
  | 0, _ => none
  | f + 1, cs0 =>
    match skipWs cs0 with
    | [] => none
    | c :: rest =>
      if c = '[' then
        match skipWs rest with
        | [] => none
        | d :: r2 =>
          if d = ']' then some (.arr [], r2)
          else
            match parseElemsF f rest with
            | some (xs, r) => some (.arr xs, r)
            | none => none
      else if c = Char.ofNat 123 then
        match skipWs rest with
        | [] => none
        | d :: r2 =>
          if d = Char.ofNat 125 then some (.obj [], r2)
          else
            match parseFieldsF f rest with
            | some (prs, r) => some (.obj (objFromPairs prs), r)
            | none => none
      else if c = '"' then
        match parseStrBody rest with
        | some (s, r) => some (.str (String.mk s), r)
        | none => none
      else if c = 'n' then
        match rest with
        | 'u' :: 'l' :: 'l' :: r => some (.null, r)
        | _ => none
      else if c = 't' then
        match rest with
        | 'r' :: 'u' :: 'e' :: r => some (.bool true, r)
        | _ => none
      else if c = 'f' then
        match rest with
        | 'a' :: 'l' :: 's' :: 'e' :: r => some (.bool false, r)
        | _ => none
      else if c = '-' || isDigitChar c then parseNumFrom (c :: rest)
      else none

def parseElemsF : Nat → List Char → Option (List JVal × List Char)
  | 0, _ => none
  | f + 1, cs =>
    match parseVF f cs with
    | some (v, r1) =>
      match skipWs r1 with
      | [] => none
      | d :: r2 =>
        if d = ',' then
          match parseElemsF f r2 with
          | some (vs, r3) => some (v :: vs, r3)
          | none => none
        else if d = ']' then some ([v], r2)
        else none
    | none => none

def parseFieldsF : Nat → List Char → Option (List (String × JVal) × List Char)
  | 0, _ => none
  | f + 1, cs =>
    match skipWs cs with
    | [] => none
    | q :: r0 =>
      if q = '"' then
        match parseStrBody r0 with
        | some (k, r1) =>
          match skipWs r1 with
          | [] => none
          | col :: r2 =>
            if col = ':' then
              match parseVF f r2 with
              | some (v, r3) =>
                match skipWs r3 with
                | [] => none
                | d :: r4 =>
                  if d = ',' then
                    match parseFieldsF f r4 with
                    | some (prs, r5) => some ((String.mk k, v) :: prs, r5)
                    | none => none
                  else if d = Char.ofNat 125 then some ([(String.mk k, v)], r4)
                  else none
              | none => none
            else none
        | none => none
      else none

end

/-- `JSON.parse` (integral-number fragment): parse one value and require only
whitespace after it. -/
def parseJson (s : String) : Option JVal :=
  match parseVF (2 * s.length + 2) s.data with
  | some (v, rest) => if skipWs rest = [] then some v else none
  | none => none

/-! ## Load pipeline (`loadJsonData`, lines 129–190)

`parsedItems.forEach(item => { if (item.DevOnly === undefined) item.DevOnly =
false })` then `items = parsedItems.sort((a, b) =>
a.Name.localeCompare(b.Name))`; any exception lands in the surrounding
`catch`, which toasts "Failed to load data" and leaves `items` untouched. -/

/-- Default-backfill of one parsed record. Reading `.DevOnly` off `null` and
assigning it on a primitive throw (the component is strict-mode ES module
code), so a non-object element aborts the load; JS puts the freshly assigned
key at the end of the insertion order. (Boundary: an element that is itself a
JSON array is also treated as an aborting element here; arrays are objects in
JS, but no value of the document format nests an array at record position.) -/
def backfillOne (r : JVal) : Except Unit JVal :=
  match r with
  | .obj fs =>
    if (lookupField fs "DevOnly").isSome then .ok (.obj fs)
    else .ok (.obj (fs ++ [("DevOnly", .bool false)]))
  | _ => .error ()

def backfillAll : List JVal → Except Unit (List JVal)
  | [] => .ok []
  | r :: rs =>
    match backfillOne r with
    | .error e => .error e
    | .ok r' =>
      match backfillAll rs with
      | .error e => .error e
      | .ok rs' => .ok (r' :: rs')

/-- `JSON.parse`, the `DevOnly` backfill, and the canonical name sort;
`Except.error` is any thrown `SyntaxError`/`TypeError`, caught by
`loadJsonData`'s `catch`. A non-array top level (object, string, number,
`null`, boolean) has no `forEach`/`sort` and throws. -/
def processContent (content : String) : Except Unit (List JVal) :=
  match parseJson content with
  | none => .error ()
  | some (.arr elems) =>
    match backfillAll elems with
    | .error e => .error e
    | .ok filled => sortE cmpRec filled
  | some _ => .error ()

/-! ## Application state and the load/save state machine -/

/-- The component's mutable state: `items`, `selectedItem`, `currentFilePath`,
and the persisted `lastUsedPath` of the side configuration file (its store is
modelled by the field itself; `saveAppConfig` failures are swallowed by the
source and the capability is modelled as succeeding). -/
structure AppState where
  items : List JVal
  selectedItem : Option Nat
  currentFilePath : Option String
  lastUsedPath : Option String

inductive LoadOutcome where
  | success
  | cancelled
  | failure
deriving DecidableEq

/-- `loadJsonData` (lines 129–190) against explicit capabilities: `readFile`
is `fs.readTextFile` (`none` = throws), `dialogPick` the open-file dialog
(`none` = user cancelled). Key order of events, exactly as in the source:
once a concrete path is resolved and read, `currentFilePath` and the
persisted config are updated (lines 171–174) *before* the content is parsed;
a cancelled dialog returns silently; any exception after the reads lands in
the outer `catch` (failure toast, no further writes). -/
def loadJsonData (st : AppState) (readFile : String → Option String)
    (dialogPick : Option String) : AppState × LoadOutcome :=
  let attempt : String → String → AppState × LoadOutcome := fun content fp =>
    let st1 := { st with currentFilePath := some fp, lastUsedPath := some fp }
    match processContent content with
    | .ok newItems => ({ st1 with items := newItems }, .success)
    | .error _ => (st1, .failure)
  match st.lastUsedPath with
  | some p =>
    match readFile p with
    | some content => attempt content p
    | none =>
      match dialogPick with
      | none => (st, .cancelled)
      | some sel =>
        match readFile sel with
        | some content => attempt content sel
        | none => (st, .failure)
  | none =>
    match dialogPick with
    | none => (st, .cancelled)
    | some sel =>
      match readFile sel with
      | some content => attempt content sel
      | none => (st, .failure)

/-- What a save operation asks of the filesystem capability. -/
inductive SaveEffect where
  | wrote (path : String) (text : String)
  | saveAsDialog

/-- `saveToCurrentPath` (lines 201–215): serialize `items` exactly as
currently ordered — no re-sort — with `JSON.stringify(items, null, 2)` and
write to `currentFilePath`; fall back to the save-as flow when no path is
held. -/
def saveToCurrentPath (st : AppState) : SaveEffect :=
  match st.currentFilePath with
  | none => .saveAsDialog
  | some p => .wrote p (stringifyTxt (.arr st.items))

/-! ## Field and array update operations (lines 243–289) -/

/-- `selectItem` (lines 243–245): unconditionally records the clicked index. -/
def selectItem (st : AppState) (index : Nat) : AppState :=
  { st with selectedItem := some index }

/-- `updateField` (lines 254–258): `items[selectedItem][field] = value`, a
no-op when nothing is selected. (The selected record is an object whenever
the selection is valid; a non-object is left unchanged where JS would throw.) -/
def updateField (st : AppState) (field : String) (value : JVal) : AppState :=
  match st.selectedItem with
  | none => st
  | some i =>
    { st with items := st.items.set i (setRecField (st.items.getD i (.obj [])) field value) }

/-- `handleSelectChange` (lines 260–265): the guard is only the *truthiness*
of the raw option text (`if (target && target.value)`), i.e. non-emptiness;
any non-empty text is forwarded as `parseInt`'s result — which is `NaN` when
no digits are found. -/
def handleSelectChange (st : AppState) (field : String) (rawText : String) : AppState :=
  if rawText = "" then st
  else
    updateField st field
      (match jsParseInt rawText with
       | some n => .num n
       | none => .nan)

/-- `addArrayItem` (lines 267–273): copy the named list field, push the
template, write back. -/
def addArrayItem (st : AppState) (field : String) (template : JVal) : AppState :=
  match st.selectedItem with
  | none => st
  | some i =>
    updateField st field (.arr (getArrField (st.items.getD i (.obj [])) field ++ [template]))

/-- `Array.prototype.splice(start, 1)`: a negative start counts from the end
(clamped at 0), a start at or past the length removes nothing. -/
def jsSpliceRemove1 (xs : List JVal) (i : Int) : List JVal :=
  let n := xs.length
  let start : Nat := if i < 0 then n - min n i.natAbs else min i.toNat n
  xs.take start ++ xs.drop (start + 1)

/-- `removeArrayItem` (lines 275–281): copy the list, `splice(index, 1)`,
write back. -/
def removeArrayItem (st : AppState) (field : String) (index : Int) : AppState :=
  match st.selectedItem with
  | none => st
  | some i =>
    updateField st field
      (.arr (jsSpliceRemove1 (getArrField (st.items.getD i (.obj [])) field) index))

/-- JS indexed write `xs[i] = v` on a (copy of a) dense array: in range it
replaces; at or past the length it extends the array to `i + 1` entries (the
holes created serialize as `null`, which is how they are modelled); a
negative index becomes a string-keyed property invisible to the JSON view,
so the array part is unchanged. -/
def jsIndexSet (xs : List JVal) (i : Int) (v : JVal) : List JVal :=
  if i < 0 then xs
  else if i.toNat < xs.length then xs.set i.toNat v
  else xs ++ List.replicate (i.toNat - xs.length) .null ++ [v]

/-- `updateArrayItem` (lines 283–289): copy the list, `currentArray[index] =
value`, write back. -/
def updateArrayItem (st : AppState) (field : String) (index : Int) (value : JVal) : AppState :=
  match st.selectedItem with
  | none => st
  | some i =>
    updateField st field
      (.arr (jsIndexSet (getArrField (st.items.getD i (.obj [])) field) index value))

/-! ## Bullet-point operations, with container identity (lines 291–315)

These three operations are the ones the spec claims rebuild the affected
`SetupDetail` as a new value with both containers copied. Whether a container
is *copied or shared* is a heap property, so this part of the model makes the
relevant containers explicit heap entities with identities: bullet-point
string arrays, `SetupDetail` objects, and the per-record `SetupDetails`
arrays each live in a store indexed by allocation order, and `[...xs]`
allocates a fresh array. Record fields other than `SetupDetails` play no part
in these operations and are omitted from the heap view. -/

/-- A `SetupDetail` heap object: `Category`, `Details`, and a *reference* to
its `BulletPoints` array. -/
structure SDObj where
  category : String
  details : String
  bullets : Nat
deriving DecidableEq

/-- The store: bullet-point arrays, `SetupDetail` objects, and `SetupDetails`
arrays (lists of `SDObj` references), each addressed by its index. -/
structure Heap where
  strArrs : List (List String)
  sdObjs : List SDObj
  sdArrs : List (List Nat)
deriving DecidableEq

/-- Component state as the bullet-point operations see it: the heap, one
`SetupDetails`-array reference per record, and the selection. -/
structure BPState where
  heap : Heap
  recSd : List Nat
  selectedItem : Option Nat
deriving DecidableEq

def allocSdArr (h : Heap) (a : List Nat) : Heap × Nat :=
  ({ h with sdArrs := h.sdArrs ++ [a] }, h.sdArrs.length)

def allocStrArr (h : Heap) (a : List String) : Heap × Nat :=
  ({ h with strArrs := h.strArrs ++ [a] }, h.strArrs.length)

/-- `updateBulletPoint` (lines 291–299): copy the `SetupDetails` array, copy
the target entry's `BulletPoints` array and replace one entry in the copy,
then assign the copy to `setupDetails[setupIndex].BulletPoints` — which
mutates the *shared* `SetupDetail` object (the element was not rebuilt) —
and write the copied outer array back through `updateField`. -/
def updateBulletPoint (st : BPState) (setupIndex bulletIndex : Nat)
    (value : String) : BPState :=
  match st.selectedItem with
  | none => st
  | some sel =>
    let sdArrId := st.recSd.getD sel 0
    let sdIds := st.heap.sdArrs.getD sdArrId []
    let (h1, newSdArrId) := allocSdArr st.heap sdIds
    let sdId := sdIds.getD setupIndex 0
    let sd := h1.sdObjs.getD sdId ⟨"", "", 0⟩
    let (h2, newBId) := allocStrArr h1 ((h1.strArrs.getD sd.bullets []).set bulletIndex value)
    let h3 := { h2 with sdObjs := h2.sdObjs.set sdId { sd with bullets := newBId } }
    { st with heap := h3, recSd := st.recSd.set sel newSdArrId }

/-- `addBulletPoint` (lines 301–307): copy the `SetupDetails` array, then
`setupDetails[setupIndex].BulletPoints.push("")` — an in-place push on the
*original, still shared* `BulletPoints` array — and write the copied outer
array back through `updateField`. -/
def addBulletPoint (st : BPState) (setupIndex : Nat) : BPState :=
  match st.selectedItem with
  | none => st
  | some sel =>
    let sdArrId := st.recSd.getD sel 0
    let sdIds := st.heap.sdArrs.getD sdArrId []
    let (h1, newSdArrId) := allocSdArr st.heap sdIds
    let sdId := sdIds.getD setupIndex 0
    let sd := h1.sdObjs.getD sdId ⟨"", "", 0⟩
    let h2 := { h1 with
      strArrs := h1.strArrs.set sd.bullets ((h1.strArrs.getD sd.bullets []) ++ [""]) }
    { st with heap := h2, recSd := st.recSd.set sel newSdArrId }

/-- `removeBulletPoint` (lines 309–315): copy the `SetupDetails` array, then
`setupDetails[setupIndex].BulletPoints.splice(bulletIndex, 1)` — an in-place
removal on the *original, still shared* `BulletPoints` array — and write the
copied outer array back through `updateField`. -/
def removeBulletPoint (st : BPState) (setupIndex bulletIndex : Nat) : BPState :=
  match st.selectedItem with
  | none => st
  | some sel =>
    let sdArrId := st.recSd.getD sel 0
    let sdIds := st.heap.sdArrs.getD sdArrId []
    let (h1, newSdArrId) := allocSdArr st.heap sdIds
    let sdId := sdIds.getD setupIndex 0
    let sd := h1.sdObjs.getD sdId ⟨"", "", 0⟩
    let h2 := { h1 with
      strArrs := h1.strArrs.set sd.bullets
        ((h1.strArrs.getD sd.bullets []).eraseIdx bulletIndex) }
    { st with heap := h2, recSd := st.recSd.set sel newSdArrId }

/-- The bullet-point *values* of setup-detail entry `setupIdx` of record
`recIdx`, read through the heap (what the UI renders and what serialization
would emit). -/
def bulletValues (st : BPState) (recIdx setupIdx : Nat) : List String :=
  let sdIds := st.heap.sdArrs.getD (st.recSd.getD recIdx 0) []
  st.heap.strArrs.getD ((st.heap.sdObjs.getD (sdIds.getD setupIdx 0) ⟨"", "", 0⟩).bullets) []

/-- The heap identity (store index) of the `BulletPoints` container of
setup-detail entry `setupIdx` of record `recIdx`. -/
def bulletContainerId (st : BPState) (recIdx setupIdx : Nat) : Nat :=
  let sdIds := st.heap.sdArrs.getD (st.recSd.getD recIdx 0) []
  (st.heap.sdObjs.getD (sdIds.getD setupIdx 0) ⟨"", "", 0⟩).bullets

/-! ## Derived observations and well-formedness, used by the theorems -/

/-- The record's `Name` as the sort comparator's receiver needs it: `some`
exactly when the property exists and is a string. -/
def nameStr (r : JVal) : Option String :=
  match getRecField r "Name" with
  | some (.str s) => some s
  | _ => none

/-- The record carries a string `Name` (so `localeCompare` can be called on
it). -/
def HasName (r : JVal) : Prop :=
  (nameStr r).isSome = true

instance (r : JVal) : Decidable (HasName r) :=
  inferInstanceAs (Decidable ((nameStr r).isSome = true))

/-- The names of a collection, in collection order. -/
def namesOf (l : List JVal) : List String :=
  l.map (fun r => (nameStr r).getD "")

/-- The pure skeleton of the sort comparator on records that carry string
names (on such records it agrees with `cmpRec`). -/
def cmpP (a b : JVal) : Ordering :=
  jsLocaleCompare ((nameStr a).getD "") ((nameStr b).getD "")

/-- Adjacent records are in weakly increasing case-insensitive name order:
the right name is not strictly below the left one. -/
def ciNameLe (a b : JVal) : Prop :=
  ltChars (ciKey ((nameStr b).getD "")) (ciKey ((nameStr a).getD "")) = false

/-- The spec's Selection invariant: absent, or a valid index into the current
collection. -/
def selectionOk (st : AppState) : Prop :=
  ∀ i, st.selectedItem = some i → i < st.items.length

/-- Values in the image of `JSON.parse`: no `NaN` and no duplicate object
keys. Round-trip fidelity is stated for these. -/
inductive JGood : JVal → Prop
  | null : JGood .null
  | bool (b : Bool) : JGood (.bool b)
  | num (n : Int) : JGood (.num n)
  | str (s : String) : JGood (.str s)
  | arr (xs : List JVal) : (∀ y ∈ xs, JGood y) → JGood (.arr xs)
  | obj (fs : List (String × JVal)) : (∀ kv ∈ fs, JGood kv.2) →
      (fs.map Prod.fst).Nodup → JGood (.obj fs)

/-- A legal continuation after a rendered number token: nothing, or a
non-digit character (every continuation the serializer emits qualifies). -/
def SafeRest (rest : List Char) : Prop :=
  rest = [] ∨ ∃ c cs, rest = c :: cs ∧ isDigitChar c = false

/-! # Theorems

First a kit of small lemmas about the embedded primitives, then one theorem
per claim (with its counterexample and witness where the claim's status
needs them). -/

theorem lookupField_setKey_self (fs : List (String × JVal)) (k : String) (v : JVal) :
    lookupField (setKey fs k v) k = some v := by
  induction fs with
  | nil => simp [setKey, lookupField]
  | cons kv rest ih =>
    obtain ⟨k', v'⟩ := kv
    by_cases h : k' = k
    · simp [setKey, h, lookupField]
    · simp [setKey, h, lookupField, ih]

theorem setKey_of_lookup {fs : List (String × JVal)} {k : String} {v : JVal}
    (h : lookupField fs k = some v) : setKey fs k v = fs := by
  induction fs with
  | nil => simp [lookupField] at h
  | cons kv rest ih =>
    obtain ⟨k', v'⟩ := kv
    by_cases hk : k' = k
    · subst hk
      simp [lookupField] at h
      simp [setKey, h]
    · simp [lookupField, hk] at h
      simp [setKey, hk, ih h]

theorem lookupField_setKey_ne (fs : List (String × JVal)) {k k' : String} (v : JVal)
    (h : k' ≠ k) : lookupField (setKey fs k v) k' = lookupField fs k' := by
  induction fs with
  | nil => simp [setKey, lookupField, Ne.symm h]
  | cons kv rest ih =>
    obtain ⟨ka, va⟩ := kv
    by_cases hk : ka = k
    · subst hk
      simp [setKey, lookupField, Ne.symm h]
    · simp [setKey, hk, lookupField, ih]

theorem getD_set_self (l : List α) (i : Nat) (x d : α) (h : i < l.length) :
    (l.set i x).getD i d = x := by
  induction l generalizing i with
  | nil => simp at h
  | cons a rest ih =>
    cases i with
    | zero => simp [List.set, List.getD]
    | succ j =>
      simp only [List.length_cons, Nat.succ_lt_succ_iff] at h
      simpa [List.set, List.getD] using ih j h

theorem set_getD_self (l : List α) (i : Nat) (d : α) :
    l.set i (l.getD i d) = l := by
  induction l generalizing i with
  | nil => simp
  | cons a rest ih =>
    cases i with
    | zero => simp [List.getD]
    | succ j => simpa [List.getD] using ih j

theorem getD_set_ne (l : List α) {i j : Nat} (x d : α) (h : j ≠ i) :
    (l.set i x).getD j d = l.getD j d := by
  induction l generalizing i j with
  | nil => simp
  | cons a rest ih =>
    cases i with
    | zero =>
      cases j with
      | zero => exact absurd rfl h
      | succ j' => simp [List.getD]
    | succ i' =>
      cases j with
      | zero => simp [List.getD]
      | succ j' =>
        have hne : j' ≠ i' := fun hh => h (by rw [hh])
        simpa [List.getD] using ih hne

/-- After `updateField` on a valid selection, the selected record holds the
written value under the written key (and the update went through `setKey` on
the record's fields). -/
theorem updateField_sel (st : AppState) (field : String) (v : JVal) {i : Nat}
    {fs : List (String × JVal)}
    (hsel : st.selectedItem = some i) (hi : i < st.items.length)
    (hobj : st.items.getD i (.obj []) = .obj fs) :
    (updateField st field v).items.getD i (.obj []) = .obj (setKey fs field v) := by
  simp only [updateField, hsel]
  rw [getD_set_self _ _ _ _ hi, hobj]
  rfl

/-- `updateField` that rewrites a field to the value it already holds leaves
the state unchanged. -/
theorem updateField_same (st : AppState) (field : String) (v : JVal) {i : Nat}
    {fs : List (String × JVal)}
    (hsel : st.selectedItem = some i)
    (hobj : st.items.getD i (.obj []) = .obj fs)
    (hlk : lookupField fs field = some v) :
    updateField st field v = st := by
  have h1 : setRecField (st.items.getD i (.obj [])) field v = st.items.getD i (.obj []) := by
    rw [hobj]
    simp [setRecField, setKey_of_lookup hlk]
  simp only [updateField, hsel, h1, set_getD_self]
  rw [← hsel]

/-- C2 — corrected. The guard in `handleSelectChange` is only the truthiness
(non-emptiness) of the raw text, not the success of the parse: the empty
string is ignored, but *every* non-empty string is forwarded through
`parseInt`, so a non-numeric text such as "not-a-number" mutates the field
to `NaN` rather than leaving it unchanged; a numeric text forwards the
parsed ordinal. -/
theorem claim_C2_enum_guard (st : AppState) (field raw : String) (i : Nat)
    (fs : List (String × JVal))
    (hsel : st.selectedItem = some i) (hi : i < st.items.length)
    (hobj : st.items.getD i (.obj []) = .obj fs) :
    (raw = "" → handleSelectChange st field raw = st) ∧
    (raw ≠ "" →
      getRecField ((handleSelectChange st field raw).items.getD i (.obj [])) field
        = some (match jsParseInt raw with | some n => .num n | none => .nan)) := by
  constructor
  · intro h
    simp [handleSelectChange, h]
  · intro h
    simp only [handleSelectChange, if_neg h]
    rw [updateField_sel st field _ hsel hi hobj]
    simp [getRecField, lookupField_setKey_self]

/-- C2 counterexample: with `OverallStatus = 4` selected, the claimed no-op
`setEnumField(idx, "OverallStatus", "not-a-number")` in fact overwrites the
field with `NaN`. -/
theorem claim_C2_counterexample :
    getRecField ((handleSelectChange
        ⟨[.obj [("OverallStatus", .num 4)]], some 0, none, none⟩
        "OverallStatus" "not-a-number").items.getD 0 (.obj [])) "OverallStatus"
      = some .nan ∧
    getRecField ((⟨[.obj [("OverallStatus", .num 4)]], some 0, none, none⟩ :
        AppState).items.getD 0 (.obj [])) "OverallStatus" = some (.num 4) ∧
    JVal.nan ≠ JVal.num 4 := by
  refine ⟨rfl, rfl, fun h => JVal.noConfusion h⟩

/-- C2 witness: the amended theorem at a concrete input — the empty string is
a no-op, and the numeric text "7" forwards ordinal 7. -/
theorem claim_C2_enum_guard_witness :
    (handleSelectChange ⟨[.obj [("OverallStatus", .num 4)]], some 0, none, none⟩
        "OverallStatus" ""
      = ⟨[.obj [("OverallStatus", .num 4)]], some 0, none, none⟩) ∧
    getRecField ((handleSelectChange
        ⟨[.obj [("OverallStatus", .num 4)]], some 0, none, none⟩
        "OverallStatus" "7").items.getD 0 (.obj [])) "OverallStatus"
      = some (.num 7) := by
  constructor
  · exact (claim_C2_enum_guard ⟨[.obj [("OverallStatus", .num 4)]], some 0, none, none⟩
      "OverallStatus" "" 0 [("OverallStatus", .num 4)] rfl (by decide) rfl).1 rfl
  · exact (claim_C2_enum_guard ⟨[.obj [("OverallStatus", .num 4)]], some 0, none, none⟩
      "OverallStatus" "7" 0 [("OverallStatus", .num 4)] rfl (by decide) rfl).2 (by decide)

theorem jsSpliceRemove1_oob (xs : List JVal) {i : Int} (h : (xs.length : Int) ≤ i) :
    jsSpliceRemove1 xs i = xs := by
  have h0 : ¬ i < 0 := by omega
  have h1 : xs.length ≤ i.toNat := by omega
  simp only [jsSpliceRemove1, if_neg h0, Nat.min_eq_right h1]
  rw [List.take_length, List.drop_eq_nil_of_le (by omega), List.append_nil]

theorem jsSpliceRemove1_neg_one (xs : List JVal) :
    jsSpliceRemove1 xs (-1) = xs.dropLast := by
  cases xs with
  | nil => rfl
  | cons a rest =>
    have h0 : ((-1 : Int)) < 0 := by omega
    have hmin : min (a :: rest).length (Int.natAbs (-1)) = 1 := by
      rw [show Int.natAbs (-1) = 1 from rfl]
      exact Nat.min_eq_right (by simp)
    simp only [jsSpliceRemove1, if_pos h0, hmin]
    rw [List.dropLast_eq_take]
    have hlen : (a :: rest).length - 1 + 1 = (a :: rest).length := by
      simp
    rw [hlen, List.drop_length, List.append_nil]

/-- C5 — corrected. An index at or past the length is indeed a silent no-op
for removal, but the out-of-bounds policy is otherwise JS's, not "leave the
list unchanged": `splice` treats a negative index as counting from the end
(so `removeListItem(-1)` deletes the last element), and an indexed write at
or past the length extends the list to `index + 1` entries (holes
serializing as `null`), while a negative indexed write touches only a
string-keyed property and leaves the JSON-visible list unchanged. -/
theorem claim_C5_out_of_bounds (st : AppState) (field : String) (i : Nat)
    (fs : List (String × JVal)) (xs : List JVal)
    (hsel : st.selectedItem = some i) (hi : i < st.items.length)
    (hobj : st.items.getD i (.obj []) = .obj fs)
    (hf : lookupField fs field = some (.arr xs)) :
    (∀ j : Int, (xs.length : Int) ≤ j → removeArrayItem st field j = st) ∧
    (getRecField ((removeArrayItem st field (-1)).items.getD i (.obj [])) field
      = some (.arr xs.dropLast)) ∧
    (∀ j : Int, (xs.length : Int) ≤ j → ∀ v,
      getRecField ((updateArrayItem st field j v).items.getD i (.obj [])) field
        = some (.arr (xs ++ List.replicate (j.toNat - xs.length) JVal.null ++ [v])) ∧
      (xs ++ List.replicate (j.toNat - xs.length) JVal.null ++ [v]).length = j.toNat + 1) ∧
    (∀ j : Int, j < 0 → ∀ v, updateArrayItem st field j v = st) := by
  have harr : getArrField (st.items.getD i (.obj [])) field = xs := by
    rw [hobj]
    simp [getArrField, getRecField, hf]
  refine ⟨?_, ?_, ?_, ?_⟩
  · intro j hj
    simp only [removeArrayItem, hsel, harr, jsSpliceRemove1_oob xs hj]
    exact updateField_same st field (.arr xs) hsel hobj hf
  · simp only [removeArrayItem, hsel, harr, jsSpliceRemove1_neg_one]
    rw [updateField_sel st field _ hsel hi hobj]
    simp [getRecField, lookupField_setKey_self]
  · intro j hj v
    have h0 : ¬ j < 0 := by omega
    have h1 : ¬ j.toNat < xs.length := by omega
    constructor
    · simp only [updateArrayItem, hsel, harr, jsIndexSet, if_neg h0, if_neg h1]
      rw [updateField_sel st field _ hsel hi hobj]
      simp [getRecField, lookupField_setKey_self]
    · simp only [List.length_append, List.length_replicate, List.length_cons,
        List.length_nil]
      omega
  · intro j hj v
    simp only [updateArrayItem, hsel, harr, jsIndexSet, if_pos hj]
    exact updateField_same st field (.arr xs) hsel hobj hf

/-- C5 counterexample: on a 2-element `FeaturesNotEmulated` list, the claimed
no-op `removeListItem(idx, "FeaturesNotEmulated", -1)` in fact deletes the
last element. -/
theorem claim_C5_counterexample :
    getRecField ((removeArrayItem
        ⟨[.obj [("FeaturesNotEmulated", .arr [.str "a", .str "b"])]], some 0, none, none⟩
        "FeaturesNotEmulated" (-1)).items.getD 0 (.obj [])) "FeaturesNotEmulated"
      = some (.arr [.str "a"]) ∧
    getRecField ((⟨[.obj [("FeaturesNotEmulated", .arr [.str "a", .str "b"])]],
        some 0, none, none⟩ : AppState).items.getD 0 (.obj [])) "FeaturesNotEmulated"
      = some (.arr [.str "a", .str "b"]) ∧
    JVal.arr [.str "a"] ≠ JVal.arr [.str "a", .str "b"] := by
  refine ⟨rfl, rfl, fun h => ?_⟩
  simp at h

/-- C5 witness: the amended theorem at a concrete input — removing at index
99 of a 2-element list is a no-op. -/
theorem claim_C5_out_of_bounds_witness :
    removeArrayItem
        ⟨[.obj [("FeaturesNotEmulated", .arr [.str "a", .str "b"])]], some 0, none, none⟩
        "FeaturesNotEmulated" 99
      = ⟨[.obj [("FeaturesNotEmulated", .arr [.str "a", .str "b"])]], some 0, none, none⟩ :=
  (claim_C5_out_of_bounds
    ⟨[.obj [("FeaturesNotEmulated", .arr [.str "a", .str "b"])]], some 0, none, none⟩
    "FeaturesNotEmulated" 0 [("FeaturesNotEmulated", .arr [.str "a", .str "b"])]
    [.str "a", .str "b"] rfl (by decide) rfl rfl).1 99 (by decide)

/-! ## The effectful sort: permutation and failure propagation -/

theorem insertE_perm {cmp : α → α → Except Unit Ordering} {x : α} :
    ∀ {l r : List α}, insertE cmp x l = .ok r → r.Perm (x :: l) := by
  intro l
  induction l with
  | nil =>
    intro r h
    simp only [insertE] at h
    cases h
    exact List.Perm.refl _
  | cons y ys ih =>
    intro r h
    simp only [insertE] at h
    cases hc : cmp x y with
    | error e => rw [hc] at h; cases h
    | ok o =>
      rw [hc] at h
      cases o with
      | gt =>
        cases hins : insertE cmp x ys with
        | error e => rw [hins] at h; cases h
        | ok r' =>
          rw [hins] at h
          cases h
          exact ((ih hins).cons y).trans (List.Perm.swap x y ys)
      | lt => cases h; exact List.Perm.refl _
      | eq => cases h; exact List.Perm.refl _

theorem sortE_perm {cmp : α → α → Except Unit Ordering} :
    ∀ {l r : List α}, sortE cmp l = .ok r → r.Perm l := by
  intro l
  induction l with
  | nil => intro r h; cases h; exact List.Perm.refl _
  | cons x xs ih =>
    intro r h
    simp only [sortE] at h
    cases hs : sortE cmp xs with
    | error e => rw [hs] at h; cases h
    | ok m =>
      rw [hs] at h
      exact (insertE_perm h).trans ((ih hs).cons x)

theorem sortE_length {cmp : α → α → Except Unit Ordering} {l r : List α}
    (h : sortE cmp l = .ok r) : r.length = l.length :=
  (sortE_perm h).length_eq

/-- Looking a key up across an append falls through to the right part exactly
when the left part misses it. -/
theorem lookupField_append (fs gs : List (String × JVal)) (k : String) :
    lookupField (fs ++ gs) k =
      (match lookupField fs k with
       | some v => some v
       | none => lookupField gs k) := by
  induction fs with
  | nil => simp [lookupField]
  | cons kv rest ih =>
    obtain ⟨k', v'⟩ := kv
    by_cases h : k' = k
    · simp [lookupField, h]
    · simp [lookupField, h, ih]

/-- Backfilling `DevOnly` cannot create or change a `Name`. -/
theorem nameStr_backfillOne {r r' : JVal} (h : backfillOne r = .ok r') :
    nameStr r' = nameStr r := by
  cases r with
  | obj fs =>
    simp only [backfillOne] at h
    by_cases hd : (lookupField fs "DevOnly").isSome
    · rw [if_pos hd] at h; cases h; rfl
    · rw [if_neg hd] at h
      cases h
      simp only [nameStr, getRecField, lookupField_append]
      cases hn : lookupField fs "Name" with
      | some v => rfl
      | none => simp [lookupField]
  | null => simp [backfillOne] at h
  | bool b => simp [backfillOne] at h
  | num n => simp [backfillOne] at h
  | nan => simp [backfillOne] at h
  | str s => simp [backfillOne] at h
  | arr xs => simp [backfillOne] at h

/-- A receiver without a string `Name` makes the comparator throw. -/
theorem cmpRec_error_of_no_name {a : JVal} (h : nameStr a = none) (b : JVal) :
    cmpRec a b = .error () := by
  simp only [nameStr] at h
  simp only [cmpRec]
  cases hg : getRecField a "Name" with
  | none => rfl
  | some v =>
    cases v with
    | str s => rw [hg] at h; simp at h
    | null => rfl
    | bool b' => rfl
    | num n => rfl
    | nan => rfl
    | arr xs => rfl
    | obj fs => rfl

/-- C4 — the code violates the Selection invariant on load: `loadJsonData`
replaces the collection wholesale but never touches `selectedItem`, so a
selection of index 1 survives a successful load of a one-record document and
dangles past the new collection's end (the record detail view then reads
`items[1]` = `undefined`). -/
theorem claim_C4_selection_invariant :
    (loadJsonData
        ⟨[.obj [("Name", .str "a")], .obj [("Name", .str "b")]], some 1, none, some "p"⟩
        (fun _ => some "[\x7b\"Name\": \"a\"\x7d]") none).2 = .success ∧
    (loadJsonData
        ⟨[.obj [("Name", .str "a")], .obj [("Name", .str "b")]], some 1, none, some "p"⟩
        (fun _ => some "[\x7b\"Name\": \"a\"\x7d]") none).1.selectedItem = some 1 ∧
    (loadJsonData
        ⟨[.obj [("Name", .str "a")], .obj [("Name", .str "b")]], some 1, none, some "p"⟩
        (fun _ => some "[\x7b\"Name\": \"a\"\x7d]") none).1.items.length = 1 ∧
    ¬ selectionOk (loadJsonData
        ⟨[.obj [("Name", .str "a")], .obj [("Name", .str "b")]], some 1, none, some "p"⟩
        (fun _ => some "[\x7b\"Name\": \"a\"\x7d]") none).1 := by
  refine ⟨rfl, rfl, rfl, fun h => ?_⟩
  have h1 := h 1 rfl
  have h2 : (loadJsonData
      ⟨[.obj [("Name", .str "a")], .obj [("Name", .str "b")]], some 1, none, some "p"⟩
      (fun _ => some "[\x7b\"Name\": \"a\"\x7d]") none).1.items.length = 1 := rfl
  omega

/-- C7 — confirmed: whenever `loadJsonData` reports failure (unreadable
resolved path, malformed JSON, or a record the backfill/sort throws on), the
in-memory collection is exactly its pre-operation value; the failure is the
non-fatal "Failed to load data" toast, modelled by the `failure` outcome. -/
theorem claim_C7_failed_load_preserves_items (st : AppState)
    (readFile : String → Option String) (dialogPick : Option String)
    (h : (loadJsonData st readFile dialogPick).2 = .failure) :
    (loadJsonData st readFile dialogPick).1.items = st.items := by
  cases hlu : st.lastUsedPath with
  | some p =>
    cases hr : readFile p with
    | some content =>
      cases hp : processContent content with
      | ok l => simp [loadJsonData, hlu, hr, hp] at h
      | error e => simp [loadJsonData, hlu, hr, hp]
    | none =>
      cases hd : dialogPick with
      | none => simp [loadJsonData, hlu, hr, hd] at h
      | some sel =>
        cases hrs : readFile sel with
        | none => simp [loadJsonData, hlu, hr, hd, hrs]
        | some c2 =>
          cases hp : processContent c2 with
          | ok l => simp [loadJsonData, hlu, hr, hd, hrs, hp] at h
          | error e => simp [loadJsonData, hlu, hr, hd, hrs, hp]
  | none =>
    cases hd : dialogPick with
    | none => simp [loadJsonData, hlu, hd] at h
    | some sel =>
      cases hrs : readFile sel with
      | none => simp [loadJsonData, hlu, hd, hrs]
      | some c2 =>
        cases hp : processContent c2 with
        | ok l => simp [loadJsonData, hlu, hd, hrs, hp] at h
        | error e => simp [loadJsonData, hlu, hd, hrs, hp]

/-- C7 witness: a load whose picked file holds malformed JSON fails and the
one-record collection survives untouched. -/
theorem claim_C7_failed_load_preserves_items_witness :
    (loadJsonData ⟨[.obj [("Name", .str "keep")]], some 0, none, none⟩
        (fun _ => some "not json") (some "q")).1.items
      = [.obj [("Name", .str "keep")]] :=
  claim_C7_failed_load_preserves_items
    ⟨[.obj [("Name", .str "keep")]], some 0, none, none⟩
    (fun _ => some "not json") (some "q") rfl

/-- C9 — confirmed: on every route that resolves a concrete path and reads
it, `currentFilePath` and the persisted `lastUsedPath` are assigned before
the content is parsed (lines 171–174 precede the `JSON.parse` of line 176),
so a load that then fails to parse still leaves both pointing at the just
resolved path — and a subsequent `saveToCurrentPath` writes the old
in-memory collection, serialized in place, to that new path. -/
theorem claim_C9_path_updated_before_parse (st : AppState)
    (readFile : String → Option String) (dialogPick : Option String) :
    (∀ sel content, st.lastUsedPath = none → dialogPick = some sel →
      readFile sel = some content → processContent content = .error () →
      loadJsonData st readFile dialogPick
        = ({ st with currentFilePath := some sel, lastUsedPath := some sel }, .failure) ∧
      saveToCurrentPath { st with currentFilePath := some sel, lastUsedPath := some sel }
        = .wrote sel (stringifyTxt (.arr st.items))) ∧
    (∀ p sel content, st.lastUsedPath = some p → readFile p = none →
      dialogPick = some sel → readFile sel = some content →
      processContent content = .error () →
      loadJsonData st readFile dialogPick
        = ({ st with currentFilePath := some sel, lastUsedPath := some sel }, .failure) ∧
      saveToCurrentPath { st with currentFilePath := some sel, lastUsedPath := some sel }
        = .wrote sel (stringifyTxt (.arr st.items))) ∧
    (∀ p content, st.lastUsedPath = some p → readFile p = some content →
      processContent content = .error () →
      loadJsonData st readFile dialogPick
        = ({ st with currentFilePath := some p, lastUsedPath := some p }, .failure) ∧
      saveToCurrentPath { st with currentFilePath := some p, lastUsedPath := some p }
        = .wrote p (stringifyTxt (.arr st.items))) := by
  refine ⟨?_, ?_, ?_⟩
  · intro sel content hlu hd hr hp
    exact ⟨by simp [loadJsonData, hlu, hd, hr, hp], by simp [saveToCurrentPath]⟩
  · intro p sel content hlu hrp hd hr hp
    exact ⟨by simp [loadJsonData, hlu, hrp, hd, hr, hp], by simp [saveToCurrentPath]⟩
  · intro p content hlu hr hp
    exact ⟨by simp [loadJsonData, hlu, hr, hp], by simp [saveToCurrentPath]⟩

/-- C9 witness: picking a file of malformed JSON moves both paths to it, the
load fails, and the next save writes the untouched old collection there. -/
theorem claim_C9_path_updated_before_parse_witness :
    loadJsonData ⟨[.obj [("Name", .str "old")]], none, none, none⟩
        (fun _ => some "\x7b not an array") (some "newPath.json")
      = (⟨[.obj [("Name", .str "old")]], none, some "newPath.json", some "newPath.json"⟩,
          .failure) ∧
    saveToCurrentPath
        ⟨[.obj [("Name", .str "old")]], none, some "newPath.json", some "newPath.json"⟩
      = .wrote "newPath.json" (stringifyTxt (.arr [.obj [("Name", .str "old")]])) :=
  (claim_C9_path_updated_before_parse
    ⟨[.obj [("Name", .str "old")]], none, none, none⟩
    (fun _ => some "\x7b not an array") (some "newPath.json")).1
    "newPath.json" "\x7b not an array" rfl rfl rfl rfl

theorem backfillAll_length : ∀ {l l' : List JVal}, backfillAll l = .ok l' →
    l'.length = l.length := by
  intro l
  induction l with
  | nil => intro l' h; cases h; rfl
  | cons a as ih =>
    intro l' h
    simp only [backfillAll] at h
    cases ha : backfillOne a with
    | error e => rw [ha] at h; cases h
    | ok a' =>
      rw [ha] at h
      cases hbs : backfillAll as with
      | error e => rw [hbs] at h; cases h
      | ok as' =>
        rw [hbs] at h
        cases h
        simpa using ih hbs


/-! ## Order properties of the comparator and the sort -/

theorem ltChars_asymm : ∀ a b : List Char, ltChars a b = true → ltChars b a = false := by
  intro a
  induction a with
  | nil =>
    intro b h
    cases b with
    | nil => simp [ltChars] at h
    | cons y ys => simp [ltChars]
  | cons x xs ih =>
    intro b h
    cases b with
    | nil => simp [ltChars] at h
    | cons y ys =>
      by_cases hxy : x < y
      · have hyx : ¬ y < x := lt_asymm hxy
        simp [ltChars, hxy, hyx]
      · by_cases hyx : y < x
        · simp [ltChars, hxy, hyx] at h
        · simp only [ltChars, if_neg hxy, if_neg hyx] at h
          simp only [ltChars, if_neg hyx, if_neg hxy]
          exact ih ys h

theorem jsLocaleCompare_gt_swap {a b : String} (h : jsLocaleCompare a b = .gt) :
    jsLocaleCompare b a = .lt := by
  simp only [jsLocaleCompare] at h ⊢
  by_cases h1 : ltChars (ciKey a) (ciKey b) = true
  · simp [h1] at h
  · by_cases h2 : ltChars (ciKey b) (ciKey a) = true
    · simp [h2]
    · simp only [h1, if_false, h2, if_false] at h
      by_cases h3 : ltChars b.data a.data = true
      · simp [h3] at h
      · by_cases h4 : ltChars a.data b.data = true
        · simp [h1, h2, h4]
        · simp [h3, h4] at h

theorem cmpP_gt_swap {a b : JVal} (h : cmpP a b = .gt) : cmpP b a ≠ .gt := by
  simp only [cmpP] at h ⊢
  rw [jsLocaleCompare_gt_swap h]
  simp

theorem insertP_perm (cmp : α → α → Ordering) (x : α) :
    ∀ l : List α, (insertP cmp x l).Perm (x :: l) := by
  intro l
  induction l with
  | nil => exact List.Perm.refl _
  | cons y ys ih =>
    simp only [insertP]
    by_cases h : cmp x y = .gt
    · rw [if_pos h]
      exact (ih.cons y).trans (List.Perm.swap x y ys)
    · rw [if_neg h]

theorem sortP_perm (cmp : α → α → Ordering) :
    ∀ l : List α, (sortP cmp l).Perm l := by
  intro l
  induction l with
  | nil => exact List.Perm.refl _
  | cons x xs ih =>
    exact (insertP_perm cmp x (sortP cmp xs)).trans (ih.cons x)

theorem insertP_chain (cmp : α → α → Ordering)
    (hswap : ∀ a b : α, cmp a b = .gt → cmp b a ≠ .gt) (x : α) :
    ∀ l : List α, List.Chain' (fun a b => cmp a b ≠ .gt) l →
      List.Chain' (fun a b => cmp a b ≠ .gt) (insertP cmp x l) := by
  intro l
  induction l with
  | nil => intro _; simp [insertP]
  | cons y ys ih =>
    intro hch
    simp only [insertP]
    by_cases h : cmp x y = .gt
    · rw [if_pos h]
      have hchtail := (List.chain'_cons'.mp hch).2
      have hrec := ih hchtail
      cases ys with
      | nil =>
        simp only [insertP]
        exact List.chain'_cons.mpr ⟨hswap x y h, List.chain'_singleton x⟩
      | cons z zs =>
        simp only [insertP] at hrec ⊢
        by_cases hz : cmp x z = .gt
        · rw [if_pos hz] at hrec ⊢
          exact List.chain'_cons.mpr ⟨(List.chain'_cons.mp hch).1, hrec⟩
        · rw [if_neg hz] at hrec ⊢
          exact List.chain'_cons.mpr ⟨hswap x y h, hrec⟩
    · rw [if_neg h]
      exact List.chain'_cons.mpr ⟨h, hch⟩

theorem sortP_chain (cmp : α → α → Ordering)
    (hswap : ∀ a b : α, cmp a b = .gt → cmp b a ≠ .gt) :
    ∀ l : List α, List.Chain' (fun a b => cmp a b ≠ .gt) (sortP cmp l) := by
  intro l
  induction l with
  | nil => simp [sortP]
  | cons x xs ih => exact insertP_chain cmp hswap x (sortP cmp xs) ih

theorem insertP_of_chain (cmp : α → α → Ordering) {x : α} {l : List α}
    (h : List.Chain' (fun a b => cmp a b ≠ .gt) (x :: l)) :
    insertP cmp x l = x :: l := by
  cases l with
  | nil => rfl
  | cons y ys =>
    have hxy := (List.chain'_cons.mp h).1
    simp [insertP, hxy]

theorem sortP_of_chain (cmp : α → α → Ordering) :
    ∀ {l : List α}, List.Chain' (fun a b => cmp a b ≠ .gt) l → sortP cmp l = l := by
  intro l
  induction l with
  | nil => intro _; rfl
  | cons x xs ih =>
    intro h
    have htail := (List.chain'_cons'.mp h).2
    simp only [sortP, ih htail]
    exact insertP_of_chain cmp h

theorem nameStr_eq_some {r : JVal} {s : String} :
    nameStr r = some s ↔ getRecField r "Name" = some (.str s) := by
  constructor
  · intro h
    simp only [nameStr] at h
    cases hg : getRecField r "Name" with
    | none => rw [hg] at h; cases h
    | some v =>
      cases v with
      | str t => rw [hg] at h; cases h; rfl
      | null => rw [hg] at h; cases h
      | bool b => rw [hg] at h; cases h
      | num n => rw [hg] at h; cases h
      | nan => rw [hg] at h; cases h
      | arr xs => rw [hg] at h; cases h
      | obj fs => rw [hg] at h; cases h
  · intro h
    simp [nameStr, h]

theorem cmpRec_eq_cmpP {a b : JVal} (ha : HasName a) (hb : HasName b) :
    cmpRec a b = .ok (cmpP a b) := by
  simp only [HasName, Option.isSome_iff_exists] at ha hb
  obtain ⟨sa, hsa⟩ := ha
  obtain ⟨sb, hsb⟩ := hb
  have hga := nameStr_eq_some.mp hsa
  have hgb := nameStr_eq_some.mp hsb
  simp [cmpRec, cmpP, hga, hgb, jsArgToStr, hsa, hsb]

theorem insertE_eq_insertP {x : JVal} (hx : HasName x) :
    ∀ {l : List JVal}, (∀ y ∈ l, HasName y) →
      insertE cmpRec x l = .ok (insertP cmpP x l) := by
  intro l
  induction l with
  | nil => intro _; rfl
  | cons y ys ih =>
    intro hl
    have hy := hl y (by simp)
    have hys : ∀ z ∈ ys, HasName z := fun z hz => hl z (by simp [hz])
    simp only [insertE, insertP, cmpRec_eq_cmpP hx hy]
    by_cases h : cmpP x y = .gt
    · simp only [h, if_pos rfl, ih hys]
      rfl
    · cases hc : cmpP x y with
      | gt => exact absurd hc h
      | lt => simp
      | eq => simp

theorem sortE_eq_sortP :
    ∀ {l : List JVal}, (∀ y ∈ l, HasName y) →
      sortE cmpRec l = .ok (sortP cmpP l) := by
  intro l
  induction l with
  | nil => intro _; rfl
  | cons x xs ih =>
    intro hl
    have hx := hl x (by simp)
    have hxs : ∀ z ∈ xs, HasName z := fun z hz => hl z (by simp [hz])
    have hmem : ∀ z ∈ sortP cmpP xs, HasName z := fun z hz =>
      hxs z ((sortP_perm cmpP xs).mem_iff.mp hz)
    simp only [sortE, ih hxs, sortP]
    exact insertE_eq_insertP hx hmem

/-- C10 — corrected. A record without a string `Name` does not by itself
make the load fail: the sort comparator (`a.Name.localeCompare(b.Name)`) can
only throw when it is invoked with such a record as its receiver, and no
engine invokes the comparator over a one-record array, so a singleton
without `Name` loads successfully, gaining only the `DevOnly` backfill.
Conversely, when every backfilled record carries a string `Name`, no
comparator call can throw under any call order (every receiver has a string
`Name`, the argument is coerced), so the load succeeds with the canonical
stable sort. Which mixed documents of two or more records fail is decided by
the engine's implementation-defined comparator call order, not by the
source, and is claimed in neither direction. -/
theorem claim_C10_missing_name (content : String) :
    (∀ fs, parseJson content = some (.arr [.obj fs]) →
      processContent content
        = .ok [if (lookupField fs "DevOnly").isSome then .obj fs
               else .obj (fs ++ [("DevOnly", .bool false)])]) ∧
    (∀ elems filled, parseJson content = some (.arr elems) →
      backfillAll elems = .ok filled → (∀ r ∈ filled, HasName r) →
      processContent content = .ok (sortP cmpP filled) ∧
      ∀ st readFile p, st.lastUsedPath = some p → readFile p = some content →
        (loadJsonData st readFile none).2 = .success) := by
  constructor
  · intro fs hparse
    by_cases hd : (lookupField fs "DevOnly").isSome
    · simp [processContent, hparse, backfillAll, backfillOne, hd, sortE, insertE]
    · simp [processContent, hparse, backfillAll, backfillOne, hd, sortE, insertE]
  · intro elems filled hparse hback hnames
    have hproc : processContent content = .ok (sortP cmpP filled) := by
      simp only [processContent, hparse, hback, sortE_eq_sortP hnames]
    refine ⟨hproc, ?_⟩
    intro st readFile p hlu hr
    simp [loadJsonData, hlu, hr, hproc]

/-- C10 counterexample: `[\x7b\x7d]` is a valid one-record document whose
record has no `Name` at all, yet the load succeeds (the claim says the
entire load must fail and leave the collection unchanged). -/
theorem claim_C10_counterexample :
    (loadJsonData ⟨[.obj [("Name", .str "z")]], none, none, some "p"⟩
        (fun _ => some "[\x7b\x7d]") none).2 = .success ∧
    (loadJsonData ⟨[.obj [("Name", .str "z")]], none, none, some "p"⟩
        (fun _ => some "[\x7b\x7d]") none).1.items
      = [.obj [("DevOnly", .bool false)]] ∧
    nameStr (.obj [("DevOnly", .bool false)]) = none :=
  ⟨rfl, rfl, rfl⟩

/-- C10 witness: the amended theorem at concrete inputs — a singleton without
`Name` loads successfully, and a two-record document whose records all carry
string names loads with the canonical sort applied. -/
theorem claim_C10_missing_name_witness :
    processContent "[\x7b\x7d]" = .ok [.obj [("DevOnly", .bool false)]] ∧
    processContent "[\x7b\"Name\": \"b\"\x7d, \x7b\"Name\": \"a\"\x7d]"
      = .ok (sortP cmpP [.obj [("Name", .str "b"), ("DevOnly", .bool false)],
                         .obj [("Name", .str "a"), ("DevOnly", .bool false)]]) := by
  constructor
  · exact (claim_C10_missing_name "[\x7b\x7d]").1 [] rfl
  · exact ((claim_C10_missing_name "[\x7b\"Name\": \"b\"\x7d, \x7b\"Name\": \"a\"\x7d]").2
      [.obj [("Name", .str "b")], .obj [("Name", .str "a")]]
      [.obj [("Name", .str "b"), ("DevOnly", .bool false)],
       .obj [("Name", .str "a"), ("DevOnly", .bool false)]]
      rfl rfl (by decide)).1

/-- A successful load factors through `sortE` on the backfilled records. -/
theorem processContent_ok {content : String} {l : List JVal}
    (h : processContent content = .ok l) :
    ∃ l₀, sortE cmpRec l₀ = .ok l := by
  cases hp : parseJson content with
  | none => simp [processContent, hp] at h
  | some v =>
    cases v with
    | arr elems =>
      simp only [processContent, hp] at h
      cases hb : backfillAll elems with
      | error e => rw [hb] at h; cases h
      | ok filled => rw [hb] at h; exact ⟨filled, h⟩
    | null => simp [processContent, hp] at h
    | bool b => simp [processContent, hp] at h
    | num n => simp [processContent, hp] at h
    | nan => simp [processContent, hp] at h
    | str s => simp [processContent, hp] at h
    | obj fs => simp [processContent, hp] at h

/-- A successful load decomposes into its three stages: parse to a top-level
array, backfill every record, sort the backfilled records. -/
theorem processContent_parts {content : String} {l : List JVal}
    (h : processContent content = .ok l) :
    ∃ elems filled, parseJson content = some (.arr elems) ∧
      backfillAll elems = .ok filled ∧ sortE cmpRec filled = .ok l := by
  cases hp : parseJson content with
  | none => simp [processContent, hp] at h
  | some v =>
    cases v with
    | arr elems =>
      simp only [processContent, hp] at h
      cases hb : backfillAll elems with
      | error e => rw [hb] at h; cases h
      | ok filled => rw [hb] at h; exact ⟨elems, filled, rfl, hb, h⟩
    | null => simp [processContent, hp] at h
    | bool b => simp [processContent, hp] at h
    | num n => simp [processContent, hp] at h
    | nan => simp [processContent, hp] at h
    | str s => simp [processContent, hp] at h
    | obj fs => simp [processContent, hp] at h

/-- Every record the backfill emits is an object that carries `DevOnly`. -/
theorem backfillAll_mem : ∀ {l l' : List JVal}, backfillAll l = .ok l' →
    ∀ r ∈ l', ∃ fs, r = .obj fs ∧ lookupField fs "DevOnly" ≠ none := by
  intro l
  induction l with
  | nil => intro l' h r hr; cases h; simp at hr
  | cons a as ih =>
    intro l' h r hr
    simp only [backfillAll] at h
    cases ha : backfillOne a with
    | error e => rw [ha] at h; cases h
    | ok a' =>
      rw [ha] at h
      cases hbs : backfillAll as with
      | error e => rw [hbs] at h; cases h
      | ok as' =>
        rw [hbs] at h
        cases h
        rcases List.mem_cons.mp hr with rfl | hmem
        · cases a with
          | obj fs =>
            simp only [backfillOne] at ha
            by_cases hd : (lookupField fs "DevOnly").isSome
            · rw [if_pos hd] at ha
              cases ha
              exact ⟨fs, rfl, by simp [Option.isSome_iff_ne_none] at hd; exact hd⟩
            · rw [if_neg hd] at ha
              cases ha
              refine ⟨fs ++ [("DevOnly", .bool false)], rfl, ?_⟩
              rw [lookupField_append]
              simp only [Option.not_isSome_iff_eq_none] at hd
              simp [hd, lookupField]
          | null => simp [backfillOne] at ha
          | bool b => simp [backfillOne] at ha
          | num n => simp [backfillOne] at ha
          | nan => simp [backfillOne] at ha
          | str s => simp [backfillOne] at ha
          | arr xs => simp [backfillOne] at ha
        · exact ih hbs r hmem

/-- C8 — confirmed. The backfill step sets `devOnly = false` exactly on the
records that omitted it (appending the key, touching nothing else), keeps a
specified `DevOnly` untouched (the whole record is untouched), and after any
successful load every record carries `DevOnly`. -/
theorem claim_C8_devonly_backfill :
    (∀ l l', backfillAll l = .ok l' →
      l'.length = l.length ∧
      ∀ i, i < l.length → ∀ fs, l.getD i (.obj []) = .obj fs →
        ∃ fs', l'.getD i (.obj []) = .obj fs' ∧
          (lookupField fs "DevOnly" = none →
            fs' = fs ++ [("DevOnly", .bool false)] ∧
            lookupField fs' "DevOnly" = some (.bool false)) ∧
          (∀ v, lookupField fs "DevOnly" = some v → fs' = fs) ∧
          (∀ k, k ≠ "DevOnly" → lookupField fs' k = lookupField fs k)) ∧
    (∀ content l, processContent content = .ok l →
      ∀ r ∈ l, ∃ fs, r = .obj fs ∧ lookupField fs "DevOnly" ≠ none) := by
  constructor
  · intro l
    induction l with
    | nil =>
      intro l' h
      cases h
      exact ⟨rfl, fun i hi => by simp at hi⟩
    | cons a as ih =>
      intro l' h
      simp only [backfillAll] at h
      cases ha : backfillOne a with
      | error e => rw [ha] at h; cases h
      | ok a' =>
        rw [ha] at h
        cases hbs : backfillAll as with
        | error e => rw [hbs] at h; cases h
        | ok as' =>
          rw [hbs] at h
          cases h
          refine ⟨by simpa using backfillAll_length hbs, ?_⟩
          intro i hi fs hfs
          cases i with
          | zero =>
            simp only [List.getD_cons_zero] at hfs ⊢
            subst hfs
            simp only [backfillOne] at ha
            by_cases hd : (lookupField fs "DevOnly").isSome
            · rw [if_pos hd] at ha
              cases ha
              refine ⟨fs, rfl, ?_, fun v _ => rfl, fun k _ => rfl⟩
              intro hnone
              rw [hnone] at hd
              simp at hd
            · rw [if_neg hd] at ha
              cases ha
              simp only [Option.not_isSome_iff_eq_none] at hd
              refine ⟨fs ++ [("DevOnly", .bool false)], rfl, ?_, ?_, ?_⟩
              · intro _
                refine ⟨rfl, ?_⟩
                rw [lookupField_append]
                simp [hd, lookupField]
              · intro v hv
                rw [hv] at hd
                cases hd
              · intro k hk
                rw [lookupField_append]
                cases hl : lookupField fs k with
                | some v => rfl
                | none => simp [lookupField, Ne.symm hk]
          | succ j =>
            simp only [List.getD_cons_succ] at hfs ⊢
            exact (ih as' hbs).2 j (by simpa using hi) fs hfs
  · intro content l h r hr
    obtain ⟨elems, filled, _, hb, hs⟩ := processContent_parts h
    exact backfillAll_mem hb r ((sortE_perm hs).subset hr)

/-- C8 witness: backfilling a two-record list appends `DevOnly = false` to
the record that omitted it and leaves the record that specified `DevOnly =
true` untouched. -/
theorem claim_C8_devonly_backfill_witness :
    ∃ fs', ([JVal.obj [("Name", .str "x"), ("DevOnly", .bool false)],
             JVal.obj [("DevOnly", .bool true)]].getD 0 (.obj []) = .obj fs') ∧
      (lookupField [("Name", JVal.str "x")] "DevOnly" = none →
        fs' = [("Name", JVal.str "x")] ++ [("DevOnly", .bool false)] ∧
        lookupField fs' "DevOnly" = some (.bool false)) ∧
      (∀ v, lookupField [("Name", JVal.str "x")] "DevOnly" = some v →
        fs' = [("Name", JVal.str "x")]) ∧
      (∀ k, k ≠ "DevOnly" →
        lookupField fs' k = lookupField [("Name", JVal.str "x")] k) :=
  (claim_C8_devonly_backfill.1
    [.obj [("Name", .str "x")], .obj [("DevOnly", .bool true)]]
    [.obj [("Name", .str "x"), ("DevOnly", .bool false)], .obj [("DevOnly", .bool true)]]
    rfl).2 0 (by decide) [("Name", .str "x")] rfl

/-- C6 — confirmed. A successfully loaded collection whose records carry
string names (the document format's shape) is in weakly increasing
case-insensitive name order under the `localeCompare` comparator, produced
deterministically by the (stable) sort; the claim's concrete document
`[Banana, apple, Cherry]` comes out as `[apple, Banana, Cherry]`. -/
theorem claim_C6_sorted_case_insensitive :
    (∀ content l, processContent content = .ok l → (∀ r ∈ l, HasName r) →
      List.Chain' ciNameLe l) ∧
    namesOf ((loadJsonData ⟨[], none, none, some "p"⟩
        (fun _ => some "[\x7b\"Name\": \"Banana\"\x7d, \x7b\"Name\": \"apple\"\x7d, \x7b\"Name\": \"Cherry\"\x7d]")
        none).1.items)
      = ["apple", "Banana", "Cherry"] := by
  constructor
  · intro content l h hn
    obtain ⟨l₀, hs⟩ := processContent_ok h
    have hn₀ : ∀ r ∈ l₀, HasName r := fun r hr =>
      hn r ((sortE_perm hs).mem_iff.mpr hr)
    have hps := sortE_eq_sortP hn₀
    rw [hs] at hps
    cases hps
    have hch := sortP_chain cmpP (fun a b => cmpP_gt_swap) l₀
    refine hch.imp ?_
    intro a b hab
    simp only [ciNameLe]
    by_cases hlt : ltChars (ciKey ((nameStr b).getD "")) (ciKey ((nameStr a).getD "")) = true
    · exfalso
      apply hab
      have hnl : ltChars (ciKey ((nameStr a).getD "")) (ciKey ((nameStr b).getD "")) = false :=
        ltChars_asymm _ _ hlt
      simp [cmpP, jsLocaleCompare, hnl, hlt]
    · exact Bool.eq_false_iff.mpr hlt
  · rfl

theorem getD_mem {l : List α} {i : Nat} (d : α) (h : i < l.length) :
    l.getD i d ∈ l := by
  rw [List.getD_eq_getElem _ _ h]
  exact List.getElem_mem h

theorem nodup_getD_ne {l : List α} (hn : l.Nodup) {i j : Nat} (d : α)
    (hi : i < l.length) (hj : j < l.length) (hij : i ≠ j) :
    l.getD i d ≠ l.getD j d := by
  rw [List.getD_eq_getElem _ _ hi, List.getD_eq_getElem _ _ hj]
  intro h
  exact hij (hn.getElem_inj_iff.mp h)

theorem getD_append_end (l : List α) (a d : α) :
    (l ++ [a]).getD l.length d = a := by
  rw [List.getD_append_right _ _ _ _ (Nat.le_refl _)]
  simp

/-- C6 witness: the general sortedness statement applied to the concrete
`[Banana, apple, Cherry]` document. -/
theorem claim_C6_sorted_case_insensitive_witness :
    List.Chain' ciNameLe
      [.obj [("Name", .str "apple"), ("DevOnly", .bool false)],
       .obj [("Name", .str "Banana"), ("DevOnly", .bool false)],
       .obj [("Name", .str "Cherry"), ("DevOnly", .bool false)]] :=
  claim_C6_sorted_case_insensitive.1
    "[\x7b\"Name\": \"Banana\"\x7d, \x7b\"Name\": \"apple\"\x7d, \x7b\"Name\": \"Cherry\"\x7d]"
    _ rfl (by decide)

/-! ## C3: copy-on-write discipline of the bullet-point operations -/

theorem bullets_getD_ne {O : List SDObj} (hbn : (O.map SDObj.bullets).Nodup)
    {i j : Nat} (hi : i < O.length) (hj : j < O.length) (hij : i ≠ j) :
    (O.getD i ⟨"", "", 0⟩).bullets ≠ (O.getD j ⟨"", "", 0⟩).bullets := by
  rw [List.getD_eq_getElem _ _ hi, List.getD_eq_getElem _ _ hj]
  intro h
  have h1 : (O.map SDObj.bullets).get ⟨i, by simpa⟩ =
      (O.map SDObj.bullets).get ⟨j, by simpa⟩ := by
    simpa using h
  rw [List.get_eq_getElem, List.get_eq_getElem] at h1
  exact hij (hbn.getElem_inj_iff.mp h1)

/-- C3 — corrected. The three bullet-point operations do copy the outer
setup-details list and write it back through `updateField("SetupDetails", ·)`,
and at the value level `appendBulletPoint` on entry `si` alters no bullet
point of any other setup-detail or of any other record; but the claimed
reconstruction of the affected `SetupDetail` with a copied bullet-points
list does not happen: `appendBulletPoint` pushes in place on the still
shared `BulletPoints` container, which keeps its identity across the edit
(it *is* aliased between the pre- and post-edit record states), and
`updateBulletPoint` copies the bullet list into a fresh container but
mutates the shared `SetupDetail` object in place instead of rebuilding it. -/
theorem claim_C3_bullet_copy_on_write (st : BPState) (sel si : Nat)
    (hsel : st.selectedItem = some sel)
    (hsellt : sel < st.recSd.length)
    (hra : ∀ r ∈ st.recSd, r < st.heap.sdArrs.length)
    (hsd : ∀ a ∈ st.heap.sdArrs, ∀ i ∈ a, i < st.heap.sdObjs.length)
    (hbl : ∀ o ∈ st.heap.sdObjs, o.bullets < st.heap.strArrs.length)
    (hbn : (st.heap.sdObjs.map SDObj.bullets).Nodup)
    (hdisj : ∀ rj, rj < st.recSd.length → rj ≠ sel →
        ∀ idx ∈ st.heap.sdArrs.getD (st.recSd.getD rj 0) [],
          idx ∉ st.heap.sdArrs.getD (st.recSd.getD sel 0) [])
    (hnod : (st.heap.sdArrs.getD (st.recSd.getD sel 0) []).Nodup)
    (hsi : si < (st.heap.sdArrs.getD (st.recSd.getD sel 0) []).length) :
    bulletValues (addBulletPoint st si) sel si = bulletValues st sel si ++ [""] ∧
    (∀ j, j < (st.heap.sdArrs.getD (st.recSd.getD sel 0) []).length → j ≠ si →
      bulletValues (addBulletPoint st si) sel j = bulletValues st sel j) ∧
    (∀ rj, rj < st.recSd.length → rj ≠ sel →
      ∀ j, j < (st.heap.sdArrs.getD (st.recSd.getD rj 0) []).length →
        bulletValues (addBulletPoint st si) rj j = bulletValues st rj j) ∧
    bulletContainerId (addBulletPoint st si) sel si = bulletContainerId st sel si ∧
    (addBulletPoint st si).heap.strArrs.getD (bulletContainerId st sel si) []
      = bulletValues st sel si ++ [""] ∧
    (∀ bi val,
      (updateBulletPoint st si bi val).heap.sdObjs.length = st.heap.sdObjs.length ∧
      bulletValues (updateBulletPoint st si bi val) sel si
        = (bulletValues st sel si).set bi val ∧
      bulletContainerId (updateBulletPoint st si bi val) sel si
        = st.heap.strArrs.length ∧
      bulletContainerId st sel si < st.heap.strArrs.length) := by
  have hArrLt : st.recSd.getD sel 0 < st.heap.sdArrs.length :=
    hra _ (getD_mem 0 hsellt)
  have hIdsMem : st.heap.sdArrs.getD (st.recSd.getD sel 0) [] ∈ st.heap.sdArrs :=
    getD_mem [] hArrLt
  have hsdIdMem : (st.heap.sdArrs.getD (st.recSd.getD sel 0) []).getD si 0
      ∈ st.heap.sdArrs.getD (st.recSd.getD sel 0) [] := getD_mem 0 hsi
  have hObjLt : (st.heap.sdArrs.getD (st.recSd.getD sel 0) []).getD si 0
      < st.heap.sdObjs.length := hsd _ hIdsMem _ hsdIdMem
  have hsdMem : st.heap.sdObjs.getD
      ((st.heap.sdArrs.getD (st.recSd.getD sel 0) []).getD si 0) ⟨"", "", 0⟩
      ∈ st.heap.sdObjs := getD_mem _ hObjLt
  have hbidLt : (st.heap.sdObjs.getD
      ((st.heap.sdArrs.getD (st.recSd.getD sel 0) []).getD si 0) ⟨"", "", 0⟩).bullets
      < st.heap.strArrs.length := hbl _ hsdMem
  refine ⟨?_, ?_, ?_, ?_, ?_, ?_⟩
  · simp only [bulletValues, addBulletPoint, hsel, allocSdArr]
    rw [getD_set_self _ _ _ _ hsellt, getD_append_end]
    rw [getD_set_self _ _ _ _ hbidLt]
  · intro j hj hji
    have hsdIdMemJ : (st.heap.sdArrs.getD (st.recSd.getD sel 0) []).getD j 0
        ∈ st.heap.sdArrs.getD (st.recSd.getD sel 0) [] := getD_mem 0 hj
    have hObjLtJ : (st.heap.sdArrs.getD (st.recSd.getD sel 0) []).getD j 0
        < st.heap.sdObjs.length := hsd _ hIdsMem _ hsdIdMemJ
    have hidne : (st.heap.sdArrs.getD (st.recSd.getD sel 0) []).getD j 0
        ≠ (st.heap.sdArrs.getD (st.recSd.getD sel 0) []).getD si 0 :=
      nodup_getD_ne hnod 0 hj hsi hji
    have hbne := bullets_getD_ne hbn hObjLtJ hObjLt hidne
    simp only [bulletValues, addBulletPoint, hsel, allocSdArr]
    rw [getD_set_self _ _ _ _ hsellt, getD_append_end]
    rw [getD_set_ne _ _ _ hbne]
  · intro rj hrj hrjne j hj
    have hArrLtJ : st.recSd.getD rj 0 < st.heap.sdArrs.length :=
      hra _ (getD_mem 0 hrj)
    have hIdsMemJ : st.heap.sdArrs.getD (st.recSd.getD rj 0) [] ∈ st.heap.sdArrs :=
      getD_mem [] hArrLtJ
    have hsdIdMemJ : (st.heap.sdArrs.getD (st.recSd.getD rj 0) []).getD j 0
        ∈ st.heap.sdArrs.getD (st.recSd.getD rj 0) [] := getD_mem 0 hj
    have hObjLtJ : (st.heap.sdArrs.getD (st.recSd.getD rj 0) []).getD j 0
        < st.heap.sdObjs.length := hsd _ hIdsMemJ _ hsdIdMemJ
    have hidne : (st.heap.sdArrs.getD (st.recSd.getD rj 0) []).getD j 0
        ≠ (st.heap.sdArrs.getD (st.recSd.getD sel 0) []).getD si 0 := by
      intro h
      exact hdisj rj hrj hrjne _ hsdIdMemJ (h ▸ hsdIdMem)
    have hbne := bullets_getD_ne hbn hObjLtJ hObjLt hidne
    simp only [bulletValues, addBulletPoint, hsel, allocSdArr]
    rw [getD_set_ne _ _ _ hrjne, List.getD_append _ _ _ _ hArrLtJ]
    rw [getD_set_ne _ _ _ hbne]
  · simp only [bulletContainerId, addBulletPoint, hsel, allocSdArr]
    rw [getD_set_self _ _ _ _ hsellt, getD_append_end]
  · simp only [bulletContainerId, bulletValues, addBulletPoint, hsel, allocSdArr]
    rw [getD_set_self _ _ _ _ hbidLt]
  · intro bi val
    refine ⟨?_, ?_, ?_, hbidLt⟩
    · simp only [updateBulletPoint, hsel, allocSdArr, allocStrArr]
      exact List.length_set _ _ _
    · simp only [bulletValues, updateBulletPoint, hsel, allocSdArr, allocStrArr]
      rw [getD_set_self _ _ _ _ hsellt, getD_append_end,
        getD_set_self _ _ _ _ hObjLt, getD_append_end]
    · simp only [bulletContainerId, updateBulletPoint, hsel, allocSdArr, allocStrArr]
      rw [getD_set_self _ _ _ _ hsellt, getD_append_end,
        getD_set_self _ _ _ _ hObjLt]

/-- C3 counterexample: after `appendBulletPoint` on setup-detail 0 the
post-edit record references the *same* bullet-points container as before
(nothing was copied), and that container's contents were mutated in place —
the claim says no bullet-points list container is aliased between the
pre-edit and post-edit record states. -/
theorem claim_C3_counterexample :
    bulletContainerId (addBulletPoint
        ⟨⟨[["x"], ["y"]], [⟨"c0", "d0", 0⟩, ⟨"c1", "d1", 1⟩], [[0, 1]]⟩, [0], some 0⟩ 0) 0 0
      = bulletContainerId
        ⟨⟨[["x"], ["y"]], [⟨"c0", "d0", 0⟩, ⟨"c1", "d1", 1⟩], [[0, 1]]⟩, [0], some 0⟩ 0 0 ∧
    ((addBulletPoint
        ⟨⟨[["x"], ["y"]], [⟨"c0", "d0", 0⟩, ⟨"c1", "d1", 1⟩], [[0, 1]]⟩, [0], some 0⟩
        0).heap.strArrs.getD (bulletContainerId
        ⟨⟨[["x"], ["y"]], [⟨"c0", "d0", 0⟩, ⟨"c1", "d1", 1⟩], [[0, 1]]⟩, [0], some 0⟩ 0 0) [])
      = ["x", ""] ∧
    ((⟨⟨[["x"], ["y"]], [⟨"c0", "d0", 0⟩, ⟨"c1", "d1", 1⟩], [[0, 1]]⟩, [0], some 0⟩ :
        BPState).heap.strArrs.getD (bulletContainerId
        ⟨⟨[["x"], ["y"]], [⟨"c0", "d0", 0⟩, ⟨"c1", "d1", 1⟩], [[0, 1]]⟩, [0], some 0⟩ 0 0) [])
      = ["x"] := by
  refine ⟨rfl, rfl, rfl⟩

/-- C3 witness: the amended theorem on a concrete two-record, two-entry
state — append isolation holds at the value level while the container stays
aliased. -/
theorem claim_C3_bullet_copy_on_write_witness :
    bulletValues (addBulletPoint
        ⟨⟨[["x"], ["y"], ["z"]], [⟨"c0", "d0", 0⟩, ⟨"c1", "d1", 1⟩, ⟨"c2", "d2", 2⟩],
          [[0, 1], [2]]⟩, [0, 1], some 0⟩ 0) 0 0
      = bulletValues
        ⟨⟨[["x"], ["y"], ["z"]], [⟨"c0", "d0", 0⟩, ⟨"c1", "d1", 1⟩, ⟨"c2", "d2", 2⟩],
          [[0, 1], [2]]⟩, [0, 1], some 0⟩ 0 0 ++ [""] :=
  (claim_C3_bullet_copy_on_write
    ⟨⟨[["x"], ["y"], ["z"]], [⟨"c0", "d0", 0⟩, ⟨"c1", "d1", 1⟩, ⟨"c2", "d2", 2⟩],
      [[0, 1], [2]]⟩, [0, 1], some 0⟩ 0 0
    rfl (by decide) (by decide) (by decide) (by decide) (by decide)
    (by decide) (by decide) (by decide)).1

/-! ## C1: round-trip of the serializer and the parser

The kit below proves `parseJson (stringifyTxt v) = some v` for every value
in the image of the parser (`JGood`), which is what the save-then-load
round trip needs. -/

theorem skipWs_cons_not_ws {c : Char} (h : isWsChar c = false) (cs : List Char) :
    skipWs (c :: cs) = c :: cs := by
  simp [skipWs, List.dropWhile_cons, h]

theorem skipWs_append_ws {w : List Char} (hw : ∀ c ∈ w, isWsChar c = true)
    (cs : List Char) : skipWs (w ++ cs) = skipWs cs := by
  induction w with
  | nil => rfl
  | cons a w' ih =>
    have ha := hw a (by simp)
    simp only [List.cons_append, skipWs, List.dropWhile_cons, ha, if_pos rfl]
    exact ih (fun c hc => hw c (by simp [hc]))

theorem indentChars_ws (d : Nat) : ∀ c ∈ indentChars d, isWsChar c = true := by
  intro c hc
  have : c = ' ' := List.eq_of_mem_replicate hc
  simp [this, isWsChar]

theorem skipWs_indent (d : Nat) (cs : List Char) :
    skipWs (indentChars d ++ cs) = skipWs cs :=
  skipWs_append_ws (indentChars_ws d) cs

theorem skipWs_nl_indent (d : Nat) (cs : List Char) :
    skipWs ('\n' :: (indentChars d ++ cs)) = skipWs cs := by
  have h1 : skipWs ('\n' :: (indentChars d ++ cs)) = skipWs (indentChars d ++ cs) := by
    simp [skipWs, List.dropWhile_cons, isWsChar]
  rw [h1, skipWs_indent]

theorem parseVF_ws_skip {w : List Char} (hw : ∀ c ∈ w, isWsChar c = true)
    (f : Nat) (cs : List Char) : parseVF f (w ++ cs) = parseVF f cs := by
  cases f with
  | zero => rfl
  | succ f' => simp only [parseVF, skipWs_append_ws hw]

theorem hexDigitChar_isHex : ∀ n, n < 16 → isHexDigitChar (hexDigitChar n) = true := by
  decide

theorem hex4_isHex (n : Nat) :
    isHexDigitChar (hexDigitChar (n / 4096 % 16)) = true ∧
    isHexDigitChar (hexDigitChar (n / 256 % 16)) = true ∧
    isHexDigitChar (hexDigitChar (n / 16 % 16)) = true ∧
    isHexDigitChar (hexDigitChar (n % 16)) = true :=
  ⟨hexDigitChar_isHex _ (Nat.mod_lt _ (by omega)),
   hexDigitChar_isHex _ (Nat.mod_lt _ (by omega)),
   hexDigitChar_isHex _ (Nat.mod_lt _ (by omega)),
   hexDigitChar_isHex _ (Nat.mod_lt _ (by omega))⟩

theorem hex4_roundtrip : ∀ n, n < 32 → hexToNat (hex4 n) = n := by
  decide

/-- One escaped character parses back to itself with the remaining input
handed on. -/
theorem parseStrBody_escChar (c : Char) (R : List Char) :
    parseStrBody (escChar c ++ R)
      = (match parseStrBody R with
         | some (s, r) => some (c :: s, r)
         | none => none) := by
  by_cases h1 : c = '"'
  · subst h1
    show parseStrBody ('\\' :: '"' :: R) = _
    conv_lhs => rw [parseStrBody.eq_def]
    simp [escDecode]
  · by_cases h2 : c = '\\'
    · subst h2
      show parseStrBody ('\\' :: '\\' :: R) = _
      conv_lhs => rw [parseStrBody.eq_def]
      simp [escDecode]
    · by_cases h3 : c = Char.ofNat 8
      · subst h3
        show parseStrBody ('\\' :: 'b' :: R) = _
        conv_lhs => rw [parseStrBody.eq_def]
        simp [escDecode]
      · by_cases h4 : c = Char.ofNat 9
        · subst h4
          show parseStrBody ('\\' :: 't' :: R) = _
          conv_lhs => rw [parseStrBody.eq_def]
          simp [escDecode]
        · by_cases h5 : c = Char.ofNat 10
          · subst h5
            show parseStrBody ('\\' :: 'n' :: R) = _
            conv_lhs => rw [parseStrBody.eq_def]
            simp [escDecode]
          · by_cases h6 : c = Char.ofNat 12
            · subst h6
              show parseStrBody ('\\' :: 'f' :: R) = _
              conv_lhs => rw [parseStrBody.eq_def]
              simp [escDecode]
            · by_cases h7 : c = Char.ofNat 13
              · subst h7
                show parseStrBody ('\\' :: 'r' :: R) = _
                conv_lhs => rw [parseStrBody.eq_def]
                simp [escDecode]
              · by_cases h8 : c.toNat < 32
                · have hesc : escChar c ++ R
                      = '\\' :: 'u' :: (hexDigitChar (c.toNat / 4096 % 16)
                        :: hexDigitChar (c.toNat / 256 % 16)
                        :: hexDigitChar (c.toNat / 16 % 16)
                        :: hexDigitChar (c.toNat % 16) :: R) := by
                    simp [escChar, h1, h2, h3, h4, h5, h6, h7, h8, hex4]
                  obtain ⟨hh1, hh2, hh3, hh4⟩ := hex4_isHex c.toNat
                  rw [hesc]
                  conv_lhs => rw [parseStrBody.eq_def]
                  simp only [hh1, hh2, hh3, hh4, Bool.and_self, if_pos rfl,
                    reduceIte]
                  rw [show hexToNat
                      [hexDigitChar (c.toNat / 4096 % 16), hexDigitChar (c.toNat / 256 % 16),
                       hexDigitChar (c.toNat / 16 % 16), hexDigitChar (c.toNat % 16)]
                      = hexToNat (hex4 c.toNat) from rfl]
                  rw [hex4_roundtrip c.toNat h8, Char.ofNat_toNat,
                    if_neg (show ¬ ('\\' : Char) = '"' by decide)]
                · have hesc : escChar c ++ R = c :: R := by
                    simp [escChar, h1, h2, h3, h4, h5, h6, h7, h8]
                  rw [hesc]
                  conv_lhs => rw [parseStrBody.eq_def]
                  simp only [h1, h2, if_false]

theorem natChars_digits (n : Nat) : ∀ c ∈ natChars n, isDigitChar c = true := by
  intro c hc
  simp only [natChars] at hc
  by_cases h : n = 0
  · rw [if_pos h] at hc
    simp at hc
    simp [hc]
    decide
  · rw [if_neg h] at hc
    rw [List.mem_reverse, List.mem_map] at hc
    obtain ⟨d, hd, rfl⟩ := hc
    have hd10 : d < 10 := Nat.digits_lt_base (by omega) hd
    have key : ∀ d, d < 10 → isDigitChar (Char.ofNat (48 + d)) = true := by decide
    exact key d hd10

theorem natChars_ne_nil (n : Nat) : natChars n ≠ [] := by
  simp only [natChars]
  by_cases h : n = 0
  · simp [h]
  · rw [if_neg h]
    simp [Nat.digits_ne_nil_iff_ne_zero, h]

theorem takeWhile_append_all {p : Char → Bool} :
    ∀ (ds rest : List Char), (∀ c ∈ ds, p c = true) →
      (∀ c cs, rest = c :: cs → p c = false) →
      (ds ++ rest).takeWhile p = ds ∧ (ds ++ rest).dropWhile p = rest := by
  intro ds
  induction ds with
  | nil =>
    intro rest _ hr
    cases rest with
    | nil => simp
    | cons c cs =>
      have := hr c cs rfl
      simp [List.takeWhile, List.dropWhile, this]
  | cons d ds' ih =>
    intro rest hds hr
    have hd := hds d (by simp)
    have hrec := ih rest (fun c hc => hds c (by simp [hc])) hr
    constructor
    · simp [List.takeWhile_cons, hd, hrec.1]
    · simp [List.dropWhile_cons, hd, hrec.2]

theorem foldl_digit_chars : ∀ (L : List Nat) (acc : Nat), (∀ d ∈ L, d < 10) →
    L.foldl (fun a d => 10 * a + ((Char.ofNat (48 + d)).toNat - 48)) acc
      = L.foldl (fun a d => 10 * a + d) acc := by
  have hchar : ∀ d, d < 10 → (Char.ofNat (48 + d)).toNat - 48 = d := by decide
  intro L
  induction L with
  | nil => intro acc _; rfl
  | cons d L' ih =>
    intro acc hL
    simp only [List.foldl_cons]
    rw [hchar d (hL d (by simp))]
    exact ih _ (fun e he => hL e (by simp [he]))

theorem foldl_reverse_ofDigits : ∀ L : List Nat,
    L.reverse.foldl (fun a d => 10 * a + d) 0 = Nat.ofDigits 10 L := by
  intro L
  induction L with
  | nil => rfl
  | cons d L' ih =>
    simp only [List.reverse_cons, List.foldl_append, List.foldl_cons, List.foldl_nil, ih]
    rw [Nat.ofDigits_cons]
    omega

theorem digitsToNat_natChars (n : Nat) : digitsToNat (natChars n) = n := by
  by_cases h : n = 0
  · subst h; decide
  · simp only [natChars, if_neg h, digitsToNat]
    have h1 : ((Nat.digits 10 n).map (fun d => Char.ofNat (48 + d))).reverse
        = (Nat.digits 10 n).reverse.map (fun d => Char.ofNat (48 + d)) := by
      rw [List.map_reverse]
    rw [h1, List.foldl_map]
    have h2 : ∀ d ∈ (Nat.digits 10 n).reverse, d < 10 := by
      intro d hd
      exact Nat.digits_lt_base (by omega) (List.mem_reverse.mp hd)
    calc (Nat.digits 10 n).reverse.foldl
          (fun a d => 10 * a + ((Char.ofNat (48 + d)).toNat - 48)) 0
        = (Nat.digits 10 n).reverse.foldl (fun a d => 10 * a + d) 0 :=
          foldl_digit_chars _ 0 h2
      _ = Nat.ofDigits 10 (Nat.digits 10 n) := foldl_reverse_ofDigits _
      _ = n := Nat.ofDigits_digits 10 n

/-- The continuation check `SafeRest` in the form the takeWhile split needs. -/
theorem safeRest_head {rest : List Char} (hr : SafeRest rest) :
    ∀ c cs, rest = c :: cs → isDigitChar c = false := by
  intro c cs hcs
  rcases hr with rfl | ⟨c', cs', rfl, hc⟩
  · cases hcs
  · cases hcs
    exact hc

/-- A serialized integer parses back to itself, consuming exactly its own
digits. -/
theorem parseNumFrom_roundtrip (n : Int) (rest : List Char) (hr : SafeRest rest) :
    parseNumFrom (intChars n ++ rest) = some (.num n, rest) := by
  by_cases hn : n < 0
  · have hic : intChars n = '-' :: natChars n.natAbs := by
      simp [intChars, hn]
    rw [hic]
    have hsplit := takeWhile_append_all (natChars n.natAbs) rest
      (natChars_digits _) (safeRest_head hr)
    have hne : ¬ (natChars n.natAbs).isEmpty = true := by
      simp [List.isEmpty_iff, natChars_ne_nil]
    have hval : -((digitsToNat (natChars n.natAbs) : Nat) : Int) = n := by
      rw [digitsToNat_natChars]
      omega
    simp [parseNumFrom, hsplit.1, hsplit.2, hne, hval]
  · have hic : intChars n = natChars n.natAbs := by
      simp [intChars, hn]
    cases hnc : natChars n.natAbs with
    | nil => exact absurd hnc (natChars_ne_nil _)
    | cons c0 t =>
      have hdig : isDigitChar c0 = true :=
        natChars_digits n.natAbs c0 (by simp [hnc])
      have hc0 : ¬ c0 = '-' := by
        intro h
        rw [h] at hdig
        simp [isDigitChar] at hdig
      have hsplit := takeWhile_append_all (c0 :: t) rest
        (by rw [← hnc]; exact natChars_digits _) (safeRest_head hr)
      have hne : ¬ (c0 :: t).isEmpty = true := by simp
      have hval : ((digitsToNat (c0 :: t) : Nat) : Int) = n := by
        rw [← hnc, digitsToNat_natChars]
        omega
      rw [hic, hnc]
      simp only [List.cons_append, parseNumFrom, if_neg hc0]
      simp only [List.cons_append] at hsplit
      simp [hsplit.1, hsplit.2, hne, hval]

/-- A digit head selects the number branch of the value dispatcher. -/
theorem digit_head_not_special {c : Char} (h : isDigitChar c = true) :
    ¬ c = '[' ∧ ¬ c = Char.ofNat 123 ∧ ¬ c = '"' ∧ ¬ c = 'n' ∧ ¬ c = 't' ∧
    ¬ c = 'f' ∧ isWsChar c = false ∧ ¬ c = ']' := by
  refine ⟨?_, ?_, ?_, ?_, ?_, ?_, ?_, ?_⟩ <;>
    first
    | (intro he; rw [he] at h; simp [isDigitChar] at h)
    | (simp only [isWsChar]
       rcases Nat.lt_or_ge c.toNat 48 with h48 | h48
       · simp [isDigitChar] at h; omega
       · have h32 : c ≠ ' ' := by
           intro he; rw [he] at h48; simp at h48
         have h9 : c ≠ '\t' := by
           intro he; rw [he] at h48; simp at h48
         have h10 : c ≠ '\n' := by
           intro he; rw [he] at h48; simp at h48
         have h13 : c ≠ '\r' := by
           intro he; rw [he] at h48; simp at h48
         simp [h32, h9, h10, h13])

/-- A minus head likewise. -/
theorem minus_head_not_special :
    ¬ ('-' : Char) = '[' ∧ ¬ ('-' : Char) = Char.ofNat 123 ∧
    ¬ ('-' : Char) = '"' ∧ ¬ ('-' : Char) = 'n' ∧ ¬ ('-' : Char) = 't' ∧
    ¬ ('-' : Char) = 'f' ∧ isWsChar '-' = false ∧ ¬ ('-' : Char) = ']' := by
  decide

theorem sepJoin_single (ind a : List Char) : sepJoin ind [a] = ind ++ a := rfl

theorem sepJoin_cons₂ (ind a b : List Char) (t : List (List Char)) :
    sepJoin ind (a :: b :: t) = ind ++ a ++ ',' :: '\n' :: sepJoin ind (b :: t) := rfl

theorem renderV_arr_cons (d : Nat) (x : JVal) (xs : List JVal) :
    renderV d (.arr (x :: xs)) = '[' :: '\n' ::
      sepJoin (indentChars (d + 1)) ((x :: xs).map (renderV (d + 1))) ++
      '\n' :: indentChars d ++ [']'] := by
  rw [renderV]
  rw [List.attach_map_val (x :: xs) (renderV (d + 1))]

theorem renderV_obj_cons (d : Nat) (kv : String × JVal) (fs : List (String × JVal)) :
    renderV d (.obj (kv :: fs)) = Char.ofNat 123 :: '\n' ::
      sepJoin (indentChars (d + 1))
        ((kv :: fs).map (fun e => quoteStr e.1 ++ ':' :: ' ' :: renderV (d + 1) e.2)) ++
      '\n' :: indentChars d ++ [Char.ofNat 125] := by
  rw [renderV]
  rw [List.attach_map_val (kv :: fs)
    (fun e => quoteStr e.1 ++ ':' :: ' ' :: renderV (d + 1) e.2)]

/-- Every serialized value starts with a character that is neither whitespace
nor a closing bracket. -/
theorem renderV_head (d : Nat) (v : JVal) :
    ∃ c t, renderV d v = c :: t ∧ isWsChar c = false ∧ ¬ c = ']' := by
  cases v with
  | null => exact ⟨'n', _, by rw [renderV], by decide, by decide⟩
  | nan => exact ⟨'n', _, by rw [renderV], by decide, by decide⟩
  | bool b =>
    cases b with
    | true => exact ⟨'t', _, by rw [renderV], by decide, by decide⟩
    | false => exact ⟨'f', _, by rw [renderV], by decide, by decide⟩
  | num n =>
    by_cases hn : n < 0
    · refine ⟨'-', natChars n.natAbs, ?_, by decide, by decide⟩
      rw [renderV]
      simp only [intChars, if_pos hn]
    · cases hnc : natChars n.natAbs with
      | nil => exact absurd hnc (natChars_ne_nil _)
      | cons c0 t0 =>
        have hdig : isDigitChar c0 = true :=
          natChars_digits _ c0 (by rw [hnc]; exact List.mem_cons_self _ _)
        have hsp := digit_head_not_special hdig
        refine ⟨c0, t0, ?_, hsp.2.2.2.2.2.2.1, hsp.2.2.2.2.2.2.2⟩
        rw [renderV]
        simp only [intChars, if_neg hn, hnc]
  | str s =>
    exact ⟨'"', _, by rw [renderV]; rfl, by decide, by decide⟩
  | arr xs =>
    cases xs with
    | nil => exact ⟨'[', [']'], by rw [renderV], by decide, by decide⟩
    | cons x xs' =>
      exact ⟨'[', '\n' :: (sepJoin (indentChars (d + 1))
          ((x :: xs').map (renderV (d + 1))) ++ '\n' :: indentChars d ++ [']']),
        renderV_arr_cons d x xs', by decide, by decide⟩
  | obj fs =>
    cases fs with
    | nil =>
      exact ⟨Char.ofNat 123, [Char.ofNat 125], by rw [renderV], by decide, by decide⟩
    | cons kv fs' =>
      exact ⟨Char.ofNat 123, '\n' :: (sepJoin (indentChars (d + 1))
          ((kv :: fs').map (fun e => quoteStr e.1 ++ ':' :: ' ' :: renderV (d + 1) e.2)) ++
          '\n' :: indentChars d ++ [Char.ofNat 125]),
        renderV_obj_cons d kv fs', by decide, by decide⟩

theorem setKey_not_mem_append {fs : List (String × JVal)} {k : String} (v : JVal)
    (h : k ∉ fs.map Prod.fst) : setKey fs k v = fs ++ [(k, v)] := by
  induction fs with
  | nil => rfl
  | cons kv rest ih =>
    obtain ⟨k', v'⟩ := kv
    simp only [List.map_cons, List.mem_cons] at h
    push_neg at h
    simp only [setKey, if_neg (Ne.symm h.1)]
    rw [ih h.2]
    simp

/-- Folding freshly keyed pairs into an object is the identity (no duplicate
keys, as in every parsed document the serializer emitted). -/
theorem objFromPairs_self {fs : List (String × JVal)}
    (h : (fs.map Prod.fst).Nodup) : objFromPairs fs = fs := by
  suffices hgen : ∀ (fs : List (String × JVal)) (acc : List (String × JVal)),
      (∀ k ∈ fs.map Prod.fst, k ∉ acc.map Prod.fst) → (fs.map Prod.fst).Nodup →
      fs.foldl (fun a kv => setKey a kv.1 kv.2) acc = acc ++ fs by
    have := hgen fs [] (by simp) h
    simpa [objFromPairs] using this
  intro fs'
  induction fs' with
  | nil => intro acc _ _; simp
  | cons kv rest ih =>
    intro acc hdisj hnd
    obtain ⟨k, v⟩ := kv
    simp only [List.foldl_cons]
    rw [setKey_not_mem_append v (hdisj k (by simp))]
    rw [ih (acc ++ [(k, v)]) ?_ ?_]
    · simp
    · intro k' hk'
      simp only [List.map_append, List.mem_append, List.map_cons]
      push_neg
      refine ⟨hdisj k' (by simp [hk']), ?_⟩
      simp only [List.map_nil, List.mem_singleton]
      intro hkk
      rw [List.map_cons] at hnd
      rcases List.nodup_cons.mp hnd with ⟨hknotin, _⟩
      rw [hkk] at hk'
      exact hknotin hk'
    · rw [List.map_cons] at hnd
      exact (List.nodup_cons.mp hnd).2

/-- The serialized body of a string parses back to exactly its characters. -/
theorem parseStrBody_roundtrip (cs : List Char) (rest : List Char) :
    parseStrBody ((cs.map escChar).flatten ++ '"' :: rest) = some (cs, rest) := by
  induction cs with
  | nil =>
    show parseStrBody ('"' :: rest) = some ([], rest)
    conv_lhs => rw [parseStrBody.eq_def]
    simp
  | cons c cs' ih =>
    simp only [List.map_cons, List.flatten_cons, List.append_assoc]
    rw [parseStrBody_escChar c]
    rw [ih]

theorem string_mk_data (s : String) : String.mk s.data = s := rfl

theorem intChars_head (n : Int) :
    ∃ c t, intChars n = c :: t ∧ (c = '-' ∨ isDigitChar c = true) := by
  by_cases hn : n < 0
  · exact ⟨'-', natChars n.natAbs, by simp [intChars, hn], Or.inl rfl⟩
  · cases hnc : natChars n.natAbs with
    | nil => exact absurd hnc (natChars_ne_nil _)
    | cons c0 t0 =>
      refine ⟨c0, t0, ?_, Or.inr (natChars_digits _ c0 (by rw [hnc]; simp))⟩
      simp [intChars, hn, hnc]

/-! Head-dispatch lemmas: one per branch of the value parser. -/

theorem parseVF_null (f : Nat) (tl : List Char) :
    parseVF (f + 1) ('n' :: 'u' :: 'l' :: 'l' :: tl) = some (.null, tl) := rfl

theorem parseVF_true (f : Nat) (tl : List Char) :
    parseVF (f + 1) ('t' :: 'r' :: 'u' :: 'e' :: tl) = some (.bool true, tl) := rfl

theorem parseVF_false (f : Nat) (tl : List Char) :
    parseVF (f + 1) ('f' :: 'a' :: 'l' :: 's' :: 'e' :: tl) = some (.bool false, tl) :=
  rfl

theorem parseVF_arr_nil (f : Nat) (tl : List Char) :
    parseVF (f + 1) ('[' :: ']' :: tl) = some (.arr [], tl) := rfl

theorem parseVF_obj_nil (f : Nat) (tl : List Char) :
    parseVF (f + 1) (Char.ofNat 123 :: Char.ofNat 125 :: tl) = some (.obj [], tl) := rfl

theorem parseVF_quote (f : Nat) (tl sd r : List Char)
    (h : parseStrBody tl = some (sd, r)) :
    parseVF (f + 1) ('"' :: tl) = some (.str (String.mk sd), r) := by
  conv_lhs => rw [parseVF.eq_def]
  have hsk : skipWs ('"' :: tl) = '"' :: tl := skipWs_cons_not_ws (by decide) tl
  simp [hsk, h]

theorem parseVF_arr_cons (f : Nat) (tl : List Char) (c0 : Char) (R : List Char)
    (hsk : skipWs tl = c0 :: R) (hne : ¬ c0 = ']')
    (xs : List JVal) (r : List Char)
    (h : parseElemsF f tl = some (xs, r)) :
    parseVF (f + 1) ('[' :: tl) = some (.arr xs, r) := by
  conv_lhs => rw [parseVF.eq_def]
  have hsk2 : skipWs ('[' :: tl) = '[' :: tl := skipWs_cons_not_ws (by decide) tl
  simp [hsk2, hsk, hne, h]

theorem parseVF_obj_cons (f : Nat) (tl : List Char) (q : Char) (R : List Char)
    (hsk : skipWs tl = q :: R) (hne : ¬ q = Char.ofNat 125)
    (prs : List (String × JVal)) (r : List Char)
    (h : parseFieldsF f tl = some (prs, r)) :
    parseVF (f + 1) (Char.ofNat 123 :: tl) = some (.obj (objFromPairs prs), r) := by
  conv_lhs => rw [parseVF.eq_def]
  have hsk2 : skipWs (Char.ofNat 123 :: tl) = Char.ofNat 123 :: tl :=
    skipWs_cons_not_ws (by decide) tl
  simp [hsk2, hsk, hne, h]

theorem parseVF_num (f : Nat) (c : Char) (tl : List Char)
    (hd : c = '-' ∨ isDigitChar c = true) :
    parseVF (f + 1) (c :: tl) = parseNumFrom (c :: tl) := by
  conv_lhs => rw [parseVF.eq_def]
  rcases hd with rfl | hdig
  · obtain ⟨m1, m2, m3, m4, m5, m6, m7, m8⟩ := minus_head_not_special
    have hsk : skipWs ('-' :: tl) = '-' :: tl := skipWs_cons_not_ws m7 tl
    simp [hsk, m1, m2, m3, m4, m5, m6]
  · obtain ⟨m1, m2, m3, m4, m5, m6, m7, m8⟩ := digit_head_not_special hdig
    have hsk : skipWs (c :: tl) = c :: tl := skipWs_cons_not_ws m7 tl
    simp [hsk, m1, m2, m3, m4, m5, m6, hdig]

/-- The first rendered entry of a non-empty separated block, with whatever
follows it. -/
theorem sepJoin_cons_general (ind a : List Char) (t : List (List Char)) :
    ∃ Q, sepJoin ind (a :: t) = ind ++ (a ++ Q) := by
  cases t with
  | nil => exact ⟨[], by simp [sepJoin_single]⟩
  | cons b t' => exact ⟨',' :: '\n' :: sepJoin ind (b :: t'), by simp [sepJoin_cons₂]⟩

/-- One-step unfolding of the element parser at successor fuel. -/
theorem parseElemsF_succ (f : Nat) (input : List Char) :
    parseElemsF (f + 1) input =
      (match parseVF f input with
      | some (v, r1) =>
        (match skipWs r1 with
        | [] => none
        | d :: r2 =>
          if d = ',' then
            (match parseElemsF f r2 with
            | some (vs, r3) => some (v :: vs, r3)
            | none => none)
          else if d = ']' then some ([v], r2) else none)
      | none => none) := rfl

/-- One-step unfolding of the field parser at successor fuel. -/
theorem parseFieldsF_succ (f : Nat) (input : List Char) :
    parseFieldsF (f + 1) input =
      (match skipWs input with
      | [] => none
      | q :: r0 =>
        if q = '"' then
          (match parseStrBody r0 with
          | some (k, r1) =>
            (match skipWs r1 with
            | [] => none
            | col :: r2 =>
              if col = ':' then
                (match parseVF f r2 with
                | some (v, r3) =>
                  (match skipWs r3 with
                  | [] => none
                  | d :: r4 =>
                    if d = ',' then
                      (match parseFieldsF f r4 with
                      | some (prs, r5) => some ((String.mk k, v) :: prs, r5)
                      | none => none)
                    else if d = Char.ofNat 125 then some ([(String.mk k, v)], r4)
                    else none)
                | none => none)
              else none)
          | none => none)
        else none) := rfl

/-- Master round-trip: at sufficient fuel the parser consumes exactly a
serialized value (A), a serialized element block (B), or a serialized field
block (C), and returns the original. The fuel bound is the rendered length,
so the canonical fuel `2·length + 2` always suffices. -/
theorem parse_render_master : ∀ f : Nat,
    (∀ v d rest, JGood v → SafeRest rest → (renderV d v).length < f →
      parseVF f (renderV d v ++ rest) = some (v, rest)) ∧
    (∀ (xs : List JVal) d rest, xs ≠ [] → (∀ y ∈ xs, JGood y) →
      (sepJoin (indentChars (d + 1)) (xs.map (renderV (d + 1)))).length + 2 ≤ f →
      parseElemsF f ('\n' :: (sepJoin (indentChars (d + 1)) (xs.map (renderV (d + 1))) ++
        '\n' :: indentChars d ++ ']' :: rest)) = some (xs, rest)) ∧
    (∀ (fs : List (String × JVal)) d rest, fs ≠ [] → (∀ kv ∈ fs, JGood kv.2) →
      (sepJoin (indentChars (d + 1))
        (fs.map (fun e => quoteStr e.1 ++ ':' :: ' ' :: renderV (d + 1) e.2))).length + 2
        ≤ f →
      parseFieldsF f ('\n' :: (sepJoin (indentChars (d + 1))
        (fs.map (fun e => quoteStr e.1 ++ ':' :: ' ' :: renderV (d + 1) e.2)) ++
        '\n' :: indentChars d ++ Char.ofNat 125 :: rest)) = some (fs, rest)) := by
  intro f
  induction f with
  | zero =>
    refine ⟨?_, ?_, ?_⟩
    · intro v d rest _ _ h
      omega
    · intro xs d rest _ _ h
      omega
    · intro fs d rest _ _ h
      omega
  | succ f ih =>
    obtain ⟨ihA, ihB, ihC⟩ := ih
    have hA : ∀ v d rest, JGood v → SafeRest rest → (renderV d v).length < f + 1 →
        parseVF (f + 1) (renderV d v ++ rest) = some (v, rest) := by
      intro v d rest hg hsafe hfuel
      cases hg with
      | null =>
        rw [show renderV d JVal.null = ['n', 'u', 'l', 'l'] from by rw [renderV]]
        exact parseVF_null f rest
      | bool b =>
        cases b with
        | true =>
          rw [show renderV d (JVal.bool true) = ['t', 'r', 'u', 'e'] from by rw [renderV]]
          exact parseVF_true f rest
        | false =>
          rw [show renderV d (JVal.bool false) = ['f', 'a', 'l', 's', 'e'] from by
            rw [renderV]]
          exact parseVF_false f rest
      | num n =>
        rw [show renderV d (JVal.num n) = intChars n from by rw [renderV]]
        obtain ⟨c0, t0, hct, hd⟩ := intChars_head n
        rw [hct, List.cons_append, parseVF_num f c0 (t0 ++ rest) hd,
          ← List.cons_append, ← hct]
        exact parseNumFrom_roundtrip n rest hsafe
      | str s =>
        rw [show renderV d (JVal.str s) = quoteStr s from by rw [renderV]]
        have hq : quoteStr s ++ rest
            = '"' :: ((s.data.map escChar).flatten ++ '"' :: rest) := by
          simp [quoteStr]
        rw [hq, parseVF_quote f _ s.data rest (parseStrBody_roundtrip s.data rest),
          string_mk_data]
      | arr xs hmem =>
        cases xs with
        | nil =>
          rw [show renderV d (JVal.arr []) = ['[', ']'] from by rw [renderV]]
          exact parseVF_arr_nil f rest
        | cons x xs' =>
          rw [renderV_arr_cons]
          have hin : ('[' :: '\n' ::
              sepJoin (indentChars (d + 1)) ((x :: xs').map (renderV (d + 1))) ++
              '\n' :: indentChars d ++ [']']) ++ rest
              = '[' :: ('\n' ::
                (sepJoin (indentChars (d + 1)) ((x :: xs').map (renderV (d + 1))) ++
                 '\n' :: indentChars d ++ ']' :: rest)) := by
            simp
          rw [hin]
          obtain ⟨Q, hQ⟩ := sepJoin_cons_general (indentChars (d + 1))
            (renderV (d + 1) x) ((xs').map (renderV (d + 1)))
          obtain ⟨c0, t0, hhead, hws, hnb⟩ := renderV_head (d + 1) x
          have hsk : skipWs ('\n' ::
              (sepJoin (indentChars (d + 1)) ((x :: xs').map (renderV (d + 1))) ++
               '\n' :: indentChars d ++ ']' :: rest))
              = c0 :: (t0 ++ (Q ++ ('\n' :: indentChars d ++ ']' :: rest))) := by
            rw [List.map_cons]
            rw [hQ, hhead]
            have hshape : (indentChars (d + 1) ++ ((c0 :: t0) ++ Q)) ++
                '\n' :: indentChars d ++ ']' :: rest
                = indentChars (d + 1) ++
                  (c0 :: (t0 ++ (Q ++ ('\n' :: indentChars d ++ ']' :: rest)))) := by
              simp
            rw [hshape, skipWs_nl_indent]
            exact skipWs_cons_not_ws hws _
          have hfuel' : (sepJoin (indentChars (d + 1))
              ((x :: xs').map (renderV (d + 1)))).length + 2 ≤ f := by
            rw [renderV_arr_cons] at hfuel
            simp only [List.length_append, List.length_cons, indentChars,
              List.length_replicate, List.length_nil] at hfuel ⊢
            omega
          have hB := ihB (x :: xs') d rest (by simp) hmem hfuel'
          exact parseVF_arr_cons f _ c0 _ hsk hnb (x :: xs') rest hB
      | obj fs hvals hnodup =>
        cases fs with
        | nil =>
          rw [show renderV d (JVal.obj []) = [Char.ofNat 123, Char.ofNat 125] from by
            rw [renderV]]
          exact parseVF_obj_nil f rest
        | cons kv fs' =>
          rw [renderV_obj_cons]
          have hin : (Char.ofNat 123 :: '\n' ::
              sepJoin (indentChars (d + 1))
                ((kv :: fs').map (fun e => quoteStr e.1 ++ ':' :: ' ' :: renderV (d + 1) e.2)) ++
              '\n' :: indentChars d ++ [Char.ofNat 125]) ++ rest
              = Char.ofNat 123 :: ('\n' ::
                (sepJoin (indentChars (d + 1))
                  ((kv :: fs').map (fun e => quoteStr e.1 ++ ':' :: ' ' :: renderV (d + 1) e.2)) ++
                 '\n' :: indentChars d ++ Char.ofNat 125 :: rest)) := by
            simp
          rw [hin]
          obtain ⟨Q, hQ⟩ := sepJoin_cons_general (indentChars (d + 1))
            (quoteStr kv.1 ++ ':' :: ' ' :: renderV (d + 1) kv.2)
            (fs'.map (fun e => quoteStr e.1 ++ ':' :: ' ' :: renderV (d + 1) e.2))
          have hsk : skipWs ('\n' ::
              (sepJoin (indentChars (d + 1))
                ((kv :: fs').map (fun e => quoteStr e.1 ++ ':' :: ' ' :: renderV (d + 1) e.2)) ++
               '\n' :: indentChars d ++ Char.ofNat 125 :: rest))
              = '"' :: (((kv.1.data.map escChar).flatten ++ ['"']) ++
                  ((':' :: ' ' :: renderV (d + 1) kv.2 ++ Q) ++
                   ('\n' :: indentChars d ++ Char.ofNat 125 :: rest))) := by
            rw [List.map_cons]
            rw [hQ]
            have hshape : (indentChars (d + 1) ++
                ((quoteStr kv.1 ++ ':' :: ' ' :: renderV (d + 1) kv.2) ++ Q)) ++
                '\n' :: indentChars d ++ Char.ofNat 125 :: rest
                = indentChars (d + 1) ++
                  ('"' :: (((kv.1.data.map escChar).flatten ++ ['"']) ++
                    ((':' :: ' ' :: renderV (d + 1) kv.2 ++ Q) ++
                     ('\n' :: indentChars d ++ Char.ofNat 125 :: rest)))) := by
              simp [quoteStr]
            rw [hshape, skipWs_nl_indent]
            exact skipWs_cons_not_ws (by decide) _
          have hfuel' : (sepJoin (indentChars (d + 1))
              ((kv :: fs').map
                (fun e => quoteStr e.1 ++ ':' :: ' ' :: renderV (d + 1) e.2))).length + 2
              ≤ f := by
            rw [renderV_obj_cons] at hfuel
            simp only [List.length_append, List.length_cons, indentChars,
              List.length_replicate, List.length_nil] at hfuel ⊢
            omega
          have hC := ihC (kv :: fs') d rest (by simp) hvals hfuel'
          have := parseVF_obj_cons f _ '"' _ hsk (by decide) (kv :: fs') rest hC
          rw [this, objFromPairs_self hnodup]
    have hB : ∀ (xs : List JVal) d rest, xs ≠ [] → (∀ y ∈ xs, JGood y) →
        (sepJoin (indentChars (d + 1)) (xs.map (renderV (d + 1)))).length + 2 ≤ f + 1 →
        parseElemsF (f + 1)
          ('\n' :: (sepJoin (indentChars (d + 1)) (xs.map (renderV (d + 1))) ++
            '\n' :: indentChars d ++ ']' :: rest)) = some (xs, rest) := by
      intro xs d rest hne hmem hfuel
      cases xs with
      | nil => exact absurd rfl hne
      | cons y ys =>
        have hgy := hmem y (by simp)
        cases ys with
        | nil =>
          rw [List.map_cons, List.map_nil, sepJoin_single] at hfuel ⊢
          have hin : '\n' :: ((indentChars (d + 1) ++ renderV (d + 1) y) ++
              '\n' :: indentChars d ++ ']' :: rest)
              = ('\n' :: indentChars (d + 1)) ++
                (renderV (d + 1) y ++ ('\n' :: indentChars d ++ ']' :: rest)) := by
            simp
          have hws : ∀ c ∈ '\n' :: indentChars (d + 1), isWsChar c = true := by
            intro c hc
            rcases List.mem_cons.mp hc with rfl | hc2
            · decide
            · exact indentChars_ws _ c hc2
          have hfy : (renderV (d + 1) y).length < f := by
            simp only [List.length_append, indentChars, List.length_replicate] at hfuel
            omega
          have hpv : parseVF f ('\n' :: ((indentChars (d + 1) ++ renderV (d + 1) y) ++
              '\n' :: indentChars d ++ ']' :: rest))
              = some (y, '\n' :: indentChars d ++ ']' :: rest) := by
            rw [hin, parseVF_ws_skip hws]
            exact ihA y (d + 1) _ hgy (Or.inr ⟨'\n', _, rfl, by decide⟩) hfy
          have hsk : skipWs ('\n' :: indentChars d ++ ']' :: rest) = ']' :: rest := by
            rw [show ('\n' :: indentChars d ++ ']' :: rest)
                = '\n' :: (indentChars d ++ (']' :: rest)) from by simp]
            rw [skipWs_nl_indent]
            exact skipWs_cons_not_ws (by decide) _
          rw [parseElemsF_succ, hpv]
          simp only [List.cons_append, List.append_assoc] at hsk
          simp [hsk]
        | cons z zs =>
          rw [List.map_cons, List.map_cons, sepJoin_cons₂] at hfuel ⊢
          rw [show ((indentChars (d + 1) ++ renderV (d + 1) y ++ ',' :: '\n' ::
              sepJoin (indentChars (d + 1)) (renderV (d + 1) z :: zs.map (renderV (d + 1)))))
              = (indentChars (d + 1) ++ (renderV (d + 1) y ++ ',' :: '\n' ::
                sepJoin (indentChars (d + 1)) (renderV (d + 1) z :: zs.map (renderV (d + 1)))))
              from by simp]
          have hws : ∀ c ∈ '\n' :: indentChars (d + 1), isWsChar c = true := by
            intro c hc
            rcases List.mem_cons.mp hc with rfl | hc2
            · decide
            · exact indentChars_ws _ c hc2
          have hfy : (renderV (d + 1) y).length < f := by
            simp only [List.length_append, List.length_cons, indentChars,
              List.length_replicate] at hfuel
            omega
          have hin : '\n' :: ((indentChars (d + 1) ++ (renderV (d + 1) y ++ ',' :: '\n' ::
              sepJoin (indentChars (d + 1)) (renderV (d + 1) z :: zs.map (renderV (d + 1))))) ++
              '\n' :: indentChars d ++ ']' :: rest)
              = ('\n' :: indentChars (d + 1)) ++
                (renderV (d + 1) y ++ (',' :: '\n' ::
                  (sepJoin (indentChars (d + 1)) (renderV (d + 1) z :: zs.map (renderV (d + 1))) ++
                   '\n' :: indentChars d ++ ']' :: rest))) := by
            simp
          have hpv : parseVF f ('\n' :: ((indentChars (d + 1) ++ (renderV (d + 1) y ++
              ',' :: '\n' :: sepJoin (indentChars (d + 1))
                (renderV (d + 1) z :: zs.map (renderV (d + 1))))) ++
              '\n' :: indentChars d ++ ']' :: rest))
              = some (y, ',' :: '\n' ::
                (sepJoin (indentChars (d + 1)) (renderV (d + 1) z :: zs.map (renderV (d + 1))) ++
                 '\n' :: indentChars d ++ ']' :: rest)) := by
            rw [hin, parseVF_ws_skip hws]
            exact ihA y (d + 1) _ hgy (Or.inr ⟨',', _, rfl, by decide⟩) hfy
          have hrec := ihB (z :: zs) d rest (by simp)
            (fun w hw => hmem w (by simp [List.mem_cons.mp hw])) ?fuel
          case fuel =>
            simp only [List.length_append, List.length_cons, indentChars,
              List.length_replicate, List.map_cons] at hfuel ⊢
            omega
          rw [List.map_cons] at hrec
          have hskc : skipWs (',' :: '\n' ::
              (sepJoin (indentChars (d + 1)) (renderV (d + 1) z :: zs.map (renderV (d + 1))) ++
               '\n' :: indentChars d ++ ']' :: rest))
              = ',' :: '\n' ::
              (sepJoin (indentChars (d + 1)) (renderV (d + 1) z :: zs.map (renderV (d + 1))) ++
               '\n' :: indentChars d ++ ']' :: rest) :=
            skipWs_cons_not_ws (by decide) _
          rw [parseElemsF_succ, hpv]
          simp only [List.cons_append, List.append_assoc] at hskc hrec
          simp [hskc, hrec]
    have hC : ∀ (fs : List (String × JVal)) d rest, fs ≠ [] → (∀ kv ∈ fs, JGood kv.2) →
        (sepJoin (indentChars (d + 1))
          (fs.map (fun e => quoteStr e.1 ++ ':' :: ' ' :: renderV (d + 1) e.2))).length + 2
          ≤ f + 1 →
        parseFieldsF (f + 1) ('\n' :: (sepJoin (indentChars (d + 1))
          (fs.map (fun e => quoteStr e.1 ++ ':' :: ' ' :: renderV (d + 1) e.2)) ++
          '\n' :: indentChars d ++ Char.ofNat 125 :: rest)) = some (fs, rest) := by
      intro fs d rest hne hvals hfuel
      cases fs with
      | nil => exact absurd rfl hne
      | cons kv fs' =>
        have hgv := hvals kv (by simp)
        have hws : ∀ c ∈ '\n' :: indentChars (d + 1), isWsChar c = true := by
          intro c hc
          rcases List.mem_cons.mp hc with rfl | hc2
          · decide
          · exact indentChars_ws _ c hc2
        cases fs' with
        | nil =>
          rw [List.map_cons, List.map_nil, sepJoin_single] at hfuel ⊢
          have hsk1 : skipWs ('\n' :: ((indentChars (d + 1) ++
              (quoteStr kv.1 ++ ':' :: ' ' :: renderV (d + 1) kv.2)) ++
              '\n' :: indentChars d ++ Char.ofNat 125 :: rest))
              = '"' :: ((kv.1.data.map escChar).flatten ++ '"' ::
                  (':' :: ' ' :: (renderV (d + 1) kv.2 ++
                    ('\n' :: indentChars d ++ Char.ofNat 125 :: rest)))) := by
            rw [show ('\n' :: ((indentChars (d + 1) ++
                (quoteStr kv.1 ++ ':' :: ' ' :: renderV (d + 1) kv.2)) ++
                '\n' :: indentChars d ++ Char.ofNat 125 :: rest))
                = '\n' :: (indentChars (d + 1) ++
                  ('"' :: ((kv.1.data.map escChar).flatten ++ '"' ::
                    (':' :: ' ' :: (renderV (d + 1) kv.2 ++
                      ('\n' :: indentChars d ++ Char.ofNat 125 :: rest)))))) from by
              simp [quoteStr]]
            rw [skipWs_nl_indent]
            exact skipWs_cons_not_ws (by decide) _
          have hstr := parseStrBody_roundtrip kv.1.data
            (':' :: ' ' :: (renderV (d + 1) kv.2 ++
              ('\n' :: indentChars d ++ Char.ofNat 125 :: rest)))
          have hfv : (renderV (d + 1) kv.2).length < f := by
            simp only [List.length_append, List.length_cons, indentChars,
              List.length_replicate, quoteStr, List.length_flatten] at hfuel
            omega
          have hpv : parseVF f (' ' :: (renderV (d + 1) kv.2 ++
              ('\n' :: indentChars d ++ Char.ofNat 125 :: rest)))
              = some (kv.2, '\n' :: indentChars d ++ Char.ofNat 125 :: rest) := by
            rw [show (' ' :: (renderV (d + 1) kv.2 ++
                ('\n' :: indentChars d ++ Char.ofNat 125 :: rest)))
                = [' '] ++ (renderV (d + 1) kv.2 ++
                  ('\n' :: indentChars d ++ Char.ofNat 125 :: rest)) from rfl]
            rw [parseVF_ws_skip (by intro c hc; simp at hc; simp [hc]; decide)]
            exact ihA kv.2 (d + 1) _ hgv (Or.inr ⟨'\n', _, rfl, by decide⟩) hfv
          have hsk2 : skipWs ('\n' :: indentChars d ++ Char.ofNat 125 :: rest)
              = Char.ofNat 125 :: rest := by
            rw [show ('\n' :: indentChars d ++ Char.ofNat 125 :: rest)
                = '\n' :: (indentChars d ++ (Char.ofNat 125 :: rest)) from by simp]
            rw [skipWs_nl_indent]
            exact skipWs_cons_not_ws (by decide) _
          have hskcol : skipWs (':' :: ' ' :: (renderV (d + 1) kv.2 ++
              ('\n' :: indentChars d ++ Char.ofNat 125 :: rest)))
              = ':' :: ' ' :: (renderV (d + 1) kv.2 ++
                ('\n' :: indentChars d ++ Char.ofNat 125 :: rest)) :=
            skipWs_cons_not_ws (by decide) _
          rw [parseFieldsF_succ, hsk1]
          simp only [List.cons_append, List.append_assoc] at hstr hskcol hpv hsk2
          simp [hstr, hskcol, hpv, hsk2, string_mk_data]
        | cons kw fs'' =>
          rw [List.map_cons, List.map_cons, sepJoin_cons₂] at hfuel ⊢
          have hsk1 : skipWs ('\n' :: ((indentChars (d + 1) ++
              (quoteStr kv.1 ++ ':' :: ' ' :: renderV (d + 1) kv.2) ++ ',' :: '\n' ::
              sepJoin (indentChars (d + 1))
                ((quoteStr kw.1 ++ ':' :: ' ' :: renderV (d + 1) kw.2) ::
                  fs''.map (fun e => quoteStr e.1 ++ ':' :: ' ' :: renderV (d + 1) e.2))) ++
              '\n' :: indentChars d ++ Char.ofNat 125 :: rest))
              = '"' :: ((kv.1.data.map escChar).flatten ++ '"' ::
                  (':' :: ' ' :: (renderV (d + 1) kv.2 ++ (',' :: '\n' ::
                    (sepJoin (indentChars (d + 1))
                      ((quoteStr kw.1 ++ ':' :: ' ' :: renderV (d + 1) kw.2) ::
                        fs''.map (fun e => quoteStr e.1 ++ ':' :: ' ' :: renderV (d + 1) e.2)) ++
                     '\n' :: indentChars d ++ Char.ofNat 125 :: rest))))) := by
            rw [show ('\n' :: ((indentChars (d + 1) ++
                (quoteStr kv.1 ++ ':' :: ' ' :: renderV (d + 1) kv.2) ++ ',' :: '\n' ::
                sepJoin (indentChars (d + 1))
                  ((quoteStr kw.1 ++ ':' :: ' ' :: renderV (d + 1) kw.2) ::
                    fs''.map (fun e => quoteStr e.1 ++ ':' :: ' ' :: renderV (d + 1) e.2))) ++
                '\n' :: indentChars d ++ Char.ofNat 125 :: rest))
                = '\n' :: (indentChars (d + 1) ++
                  ('"' :: ((kv.1.data.map escChar).flatten ++ '"' ::
                    (':' :: ' ' :: (renderV (d + 1) kv.2 ++ (',' :: '\n' ::
                      (sepJoin (indentChars (d + 1))
                        ((quoteStr kw.1 ++ ':' :: ' ' :: renderV (d + 1) kw.2) ::
                          fs''.map (fun e => quoteStr e.1 ++ ':' :: ' ' :: renderV (d + 1) e.2)) ++
                       '\n' :: indentChars d ++ Char.ofNat 125 :: rest))))))) from by
              simp [quoteStr]]
            rw [skipWs_nl_indent]
            exact skipWs_cons_not_ws (by decide) _
          have hstr := parseStrBody_roundtrip kv.1.data
            (':' :: ' ' :: (renderV (d + 1) kv.2 ++ (',' :: '\n' ::
              (sepJoin (indentChars (d + 1))
                ((quoteStr kw.1 ++ ':' :: ' ' :: renderV (d + 1) kw.2) ::
                  fs''.map (fun e => quoteStr e.1 ++ ':' :: ' ' :: renderV (d + 1) e.2)) ++
               '\n' :: indentChars d ++ Char.ofNat 125 :: rest))))
          have hfv : (renderV (d + 1) kv.2).length < f := by
            simp only [List.length_append, List.length_cons, indentChars,
              List.length_replicate, quoteStr, List.length_flatten] at hfuel
            omega
          have hpv : parseVF f (' ' :: (renderV (d + 1) kv.2 ++ (',' :: '\n' ::
              (sepJoin (indentChars (d + 1))
                ((quoteStr kw.1 ++ ':' :: ' ' :: renderV (d + 1) kw.2) ::
                  fs''.map (fun e => quoteStr e.1 ++ ':' :: ' ' :: renderV (d + 1) e.2)) ++
               '\n' :: indentChars d ++ Char.ofNat 125 :: rest))))
              = some (kv.2, ',' :: '\n' ::
                (sepJoin (indentChars (d + 1))
                  ((quoteStr kw.1 ++ ':' :: ' ' :: renderV (d + 1) kw.2) ::
                    fs''.map (fun e => quoteStr e.1 ++ ':' :: ' ' :: renderV (d + 1) e.2)) ++
                 '\n' :: indentChars d ++ Char.ofNat 125 :: rest)) := by
            rw [show (' ' :: (renderV (d + 1) kv.2 ++ (',' :: '\n' ::
                (sepJoin (indentChars (d + 1))
                  ((quoteStr kw.1 ++ ':' :: ' ' :: renderV (d + 1) kw.2) ::
                    fs''.map (fun e => quoteStr e.1 ++ ':' :: ' ' :: renderV (d + 1) e.2)) ++
                 '\n' :: indentChars d ++ Char.ofNat 125 :: rest))))
                = [' '] ++ (renderV (d + 1) kv.2 ++ (',' :: '\n' ::
                  (sepJoin (indentChars (d + 1))
                    ((quoteStr kw.1 ++ ':' :: ' ' :: renderV (d + 1) kw.2) ::
                      fs''.map (fun e => quoteStr e.1 ++ ':' :: ' ' :: renderV (d + 1) e.2)) ++
                   '\n' :: indentChars d ++ Char.ofNat 125 :: rest))) from rfl]
            rw [parseVF_ws_skip (by intro c hc; simp at hc; simp [hc]; decide)]
            exact ihA kv.2 (d + 1) _ hgv (Or.inr ⟨',', _, rfl, by decide⟩) hfv
          have hrec := ihC (kw :: fs'') d rest (by simp)
            (fun w hw => hvals w (by simp [List.mem_cons.mp hw])) ?fuelC
          case fuelC =>
            simp only [List.length_append, List.length_cons, indentChars,
              List.length_replicate, List.map_cons] at hfuel ⊢
            omega
          rw [List.map_cons] at hrec
          have hskc : skipWs (',' :: '\n' ::
              (sepJoin (indentChars (d + 1))
                ((quoteStr kw.1 ++ ':' :: ' ' :: renderV (d + 1) kw.2) ::
                  fs''.map (fun e => quoteStr e.1 ++ ':' :: ' ' :: renderV (d + 1) e.2)) ++
               '\n' :: indentChars d ++ Char.ofNat 125 :: rest))
              = ',' :: '\n' ::
              (sepJoin (indentChars (d + 1))
                ((quoteStr kw.1 ++ ':' :: ' ' :: renderV (d + 1) kw.2) ::
                  fs''.map (fun e => quoteStr e.1 ++ ':' :: ' ' :: renderV (d + 1) e.2)) ++
               '\n' :: indentChars d ++ Char.ofNat 125 :: rest) :=
            skipWs_cons_not_ws (by decide) _
          have hskcol : skipWs (':' :: ' ' :: (renderV (d + 1) kv.2 ++ (',' :: '\n' ::
              (sepJoin (indentChars (d + 1))
                ((quoteStr kw.1 ++ ':' :: ' ' :: renderV (d + 1) kw.2) ::
                  fs''.map (fun e => quoteStr e.1 ++ ':' :: ' ' :: renderV (d + 1) e.2)) ++
               '\n' :: indentChars d ++ Char.ofNat 125 :: rest))))
              = ':' :: ' ' :: (renderV (d + 1) kv.2 ++ (',' :: '\n' ::
                (sepJoin (indentChars (d + 1))
                  ((quoteStr kw.1 ++ ':' :: ' ' :: renderV (d + 1) kw.2) ::
                    fs''.map (fun e => quoteStr e.1 ++ ':' :: ' ' :: renderV (d + 1) e.2)) ++
                 '\n' :: indentChars d ++ Char.ofNat 125 :: rest))) :=
            skipWs_cons_not_ws (by decide) _
          rw [parseFieldsF_succ, hsk1]
          simp only [List.cons_append, List.append_assoc] at hstr hskcol hpv hskc hrec
          simp [hstr, hskcol, hpv, hskc, hrec, string_mk_data]
    exact ⟨hA, hB, hC⟩

/-- A key looks up to something exactly when it is among the object's keys. -/
theorem lookupField_isSome_mem {fs : List (String × JVal)} {k : String} :
    (lookupField fs k).isSome = true ↔ k ∈ fs.map Prod.fst := by
  induction fs with
  | nil => simp [lookupField]
  | cons kv rest ih =>
    obtain ⟨k', v'⟩ := kv
    by_cases h : k' = k
    · subst h
      simp [lookupField]
    · simp [lookupField, h, ih, Ne.symm h]

/-- `setKey` keeps the key list when the key exists and appends it otherwise. -/
theorem setKey_keys (fs : List (String × JVal)) (k : String) (v : JVal) :
    (setKey fs k v).map Prod.fst =
      if k ∈ fs.map Prod.fst then fs.map Prod.fst else fs.map Prod.fst ++ [k] := by
  induction fs with
  | nil => simp [setKey]
  | cons kv rest ih =>
    obtain ⟨k', v'⟩ := kv
    by_cases h : k' = k
    · subst h
      simp [setKey]
    · have hne : ¬ (k = k') := fun hh => h hh.symm
      simp only [setKey, if_neg h, List.map_cons, ih, List.mem_cons, hne, false_or]
      by_cases hm : k ∈ rest.map Prod.fst
      · simp [hm]
      · simp [hm]

/-- JS property-assignment folding never produces a duplicate key. -/
theorem objFromPairs_keys_nodup (prs : List (String × JVal)) :
    ((objFromPairs prs).map Prod.fst).Nodup := by
  suffices hgen : ∀ (ps : List (String × JVal)) (acc : List (String × JVal)),
      (acc.map Prod.fst).Nodup →
      ((ps.foldl (fun a kv => setKey a kv.1 kv.2) acc).map Prod.fst).Nodup by
    exact hgen prs [] (by simp)
  intro ps
  induction ps with
  | nil => intro acc h; simpa using h
  | cons kv rest ih =>
    intro acc h
    simp only [List.foldl_cons]
    refine ih _ ?_
    rw [setKey_keys]
    by_cases hm : kv.1 ∈ acc.map Prod.fst
    · rw [if_pos hm]; exact h
    · rw [if_neg hm]
      refine List.Nodup.append h (List.nodup_singleton _) ?_
      intro a ha hb
      simp only [List.mem_singleton] at hb
      subst hb
      exact hm ha

/-- Every binding of a `setKey` result is an old binding or the written one. -/
theorem setKey_mem {fs : List (String × JVal)} {k : String} {v : JVal}
    {kv : String × JVal} (h : kv ∈ setKey fs k v) : kv ∈ fs ∨ kv = (k, v) := by
  induction fs with
  | nil => simpa [setKey] using h
  | cons p rest ih =>
    obtain ⟨k', v'⟩ := p
    by_cases hk : k' = k
    · subst hk
      simp only [setKey, if_pos rfl] at h
      rcases List.mem_cons.mp h with rfl | hm
      · exact Or.inr rfl
      · exact Or.inl (List.mem_cons_of_mem _ hm)
    · simp only [setKey, if_neg hk] at h
      rcases List.mem_cons.mp h with rfl | hm
      · exact Or.inl (List.mem_cons_self _ _)
      · rcases ih hm with h1 | h2
        · exact Or.inl (List.mem_cons_of_mem _ h1)
        · exact Or.inr h2

/-- Every binding of the folded object comes from the parsed pair list. -/
theorem objFromPairs_mem {prs : List (String × JVal)} {kv : String × JVal}
    (h : kv ∈ objFromPairs prs) : kv ∈ prs := by
  suffices hgen : ∀ (ps : List (String × JVal)) (acc : List (String × JVal))
      (kv : String × JVal),
      kv ∈ ps.foldl (fun a p => setKey a p.1 p.2) acc → kv ∈ acc ∨ kv ∈ ps by
    rcases hgen prs [] kv h with h1 | h2
    · simp at h1
    · exact h2
  intro ps
  induction ps with
  | nil => intro acc kv h; exact Or.inl h
  | cons p rest ih =>
    intro acc kv h
    simp only [List.foldl_cons] at h
    rcases ih _ kv h with h1 | h2
    · rcases setKey_mem h1 with ha | hb
      · exact Or.inl ha
      · exact Or.inr (by simp [hb])
    · exact Or.inr (List.mem_cons_of_mem _ h2)

/-- A number token always parses to a `num` value. -/
theorem parseNumFrom_shape {cs : List Char} {v : JVal} {r : List Char}
    (h : parseNumFrom cs = some (v, r)) : ∃ n : Int, v = JVal.num n := by
  cases cs with
  | nil => simp [parseNumFrom] at h
  | cons c rest =>
    simp only [parseNumFrom] at h
    split at h
    · split at h
      · exact Option.noConfusion h
      · cases h; exact ⟨_, rfl⟩
    · split at h
      · exact Option.noConfusion h
      · cases h; exact ⟨_, rfl⟩

/-- One-step unfolding of the value parser at successor fuel. -/
theorem parseVF_succ (f : Nat) (cs0 : List Char) :
    parseVF (f + 1) cs0 =
      (match skipWs cs0 with
      | [] => none
      | c :: rest =>
        if c = '[' then
          match skipWs rest with
          | [] => none
          | d :: r2 =>
            if d = ']' then some (.arr [], r2)
            else
              match parseElemsF f rest with
              | some (xs, r) => some (.arr xs, r)
              | none => none
        else if c = Char.ofNat 123 then
          match skipWs rest with
          | [] => none
          | d :: r2 =>
            if d = Char.ofNat 125 then some (.obj [], r2)
            else
              match parseFieldsF f rest with
              | some (prs, r) => some (.obj (objFromPairs prs), r)
              | none => none
        else if c = '"' then
          match parseStrBody rest with
          | some (s, r) => some (.str (String.mk s), r)
          | none => none
        else if c = 'n' then
          match rest with
          | 'u' :: 'l' :: 'l' :: r => some (.null, r)
          | _ => none
        else if c = 't' then
          match rest with
          | 'r' :: 'u' :: 'e' :: r => some (.bool true, r)
          | _ => none
        else if c = 'f' then
          match rest with
          | 'a' :: 'l' :: 's' :: 'e' :: r => some (.bool false, r)
          | _ => none
        else if c = '-' || isDigitChar c then parseNumFrom (c :: rest)
        else none) := rfl

/-- Everything the parser produces is `JGood`: no `NaN`, no duplicate object
keys (value parser, element parser and field parser together). -/
theorem parse_good_master : ∀ f : Nat,
    (∀ cs v r, parseVF f cs = some (v, r) → JGood v) ∧
    (∀ cs xs r, parseElemsF f cs = some (xs, r) → ∀ y ∈ xs, JGood y) ∧
    (∀ cs fs r, parseFieldsF f cs = some (fs, r) → ∀ kv ∈ fs, JGood kv.2) := by
  intro f
  induction f with
  | zero =>
    refine ⟨?_, ?_, ?_⟩
    · intro cs v r h
      rw [show parseVF 0 cs = none from rfl] at h
      exact Option.noConfusion h
    · intro cs xs r h
      rw [show parseElemsF 0 cs = none from rfl] at h
      exact Option.noConfusion h
    · intro cs fs r h
      rw [show parseFieldsF 0 cs = none from rfl] at h
      exact Option.noConfusion h
  | succ f ih =>
    obtain ⟨ihV, ihE, ihF⟩ := ih
    refine ⟨?_, ?_, ?_⟩
    · intro cs v r h
      rw [parseVF_succ] at h
      split at h
      · exact Option.noConfusion h
      · split at h
        · split at h
          · exact Option.noConfusion h
          · split at h
            · cases h
              exact JGood.arr [] (by simp)
            · split at h
              · rename_i xs r' heq
                cases h
                exact JGood.arr xs (ihE _ _ _ heq)
              · exact Option.noConfusion h
        · split at h
          · split at h
            · exact Option.noConfusion h
            · split at h
              · cases h
                exact JGood.obj [] (by simp) (by simp)
              · split at h
                · rename_i prs r' heq
                  cases h
                  exact JGood.obj _
                    (fun kv hkv => ihF _ _ _ heq kv (objFromPairs_mem hkv))
                    (objFromPairs_keys_nodup prs)
                · exact Option.noConfusion h
          · split at h
            · split at h
              · rename_i s r' heq
                cases h
                exact JGood.str _
              · exact Option.noConfusion h
            · split at h
              · split at h
                · cases h
                  exact JGood.null
                · exact Option.noConfusion h
              · split at h
                · split at h
                  · cases h
                    exact JGood.bool true
                  · exact Option.noConfusion h
                · split at h
                  · split at h
                    · cases h
                      exact JGood.bool false
                    · exact Option.noConfusion h
                  · split at h
                    · obtain ⟨n, rfl⟩ := parseNumFrom_shape h
                      exact JGood.num n
                    · exact Option.noConfusion h
    · intro cs xs r h
      rw [parseElemsF_succ] at h
      split at h
      · rename_i v r1 heqV
        split at h
        · exact Option.noConfusion h
        · split at h
          · split at h
            · rename_i vs r3 heqE
              cases h
              intro y hy
              rcases List.mem_cons.mp hy with rfl | hy2
              · exact ihV _ _ _ heqV
              · exact ihE _ _ _ heqE y hy2
            · exact Option.noConfusion h
          · split at h
            · cases h
              intro y hy
              simp only [List.mem_singleton] at hy
              subst hy
              exact ihV _ _ _ heqV
            · exact Option.noConfusion h
      · exact Option.noConfusion h
    · intro cs fsx r h
      rw [parseFieldsF_succ] at h
      split at h
      · exact Option.noConfusion h
      · split at h
        · split at h
          · rename_i k r1 heqS
            split at h
            · exact Option.noConfusion h
            · split at h
              · split at h
                · rename_i v r3 heqV
                  split at h
                  · exact Option.noConfusion h
                  · split at h
                    · split at h
                      · rename_i prs r5 heqF
                        cases h
                        intro kv hkv
                        rcases List.mem_cons.mp hkv with rfl | hkv2
                        · exact ihV _ _ _ heqV
                        · exact ihF _ _ _ heqF kv hkv2
                      · exact Option.noConfusion h
                    · split at h
                      · cases h
                        intro kv hkv
                        simp only [List.mem_singleton] at hkv
                        subst hkv
                        exact ihV _ _ _ heqV
                      · exact Option.noConfusion h
                · exact Option.noConfusion h
              · exact Option.noConfusion h
          · exact Option.noConfusion h
        · exact Option.noConfusion h

/-- `JSON.parse` only yields `JGood` values. -/
theorem parseJson_good {s : String} {v : JVal} (h : parseJson s = some v) :
    JGood v := by
  simp only [parseJson] at h
  cases hp : parseVF (2 * s.length + 2) s.data with
  | none =>
    simp only [hp] at h
    exact Option.noConfusion h
  | some pr =>
    obtain ⟨w, rest⟩ := pr
    simp only [hp] at h
    by_cases hw : skipWs rest = []
    · rw [if_pos hw] at h
      cases h
      exact (parse_good_master _).1 _ _ _ hp
    · rw [if_neg hw] at h
      exact Option.noConfusion h

/-- Top-level round trip: `JSON.parse` inverts `JSON.stringify(·, null, 2)` on
parser-image values. -/
theorem stringify_parse_roundtrip {v : JVal} (hg : JGood v) :
    parseJson (stringifyTxt v) = some v := by
  have hlen : (stringifyTxt v).length = (renderV 0 v).length := rfl
  have h := (parse_render_master (2 * (stringifyTxt v).length + 2)).1 v 0 [] hg
    (Or.inl rfl) (by rw [hlen]; omega)
  rw [List.append_nil] at h
  simp only [parseJson]
  rw [show (stringifyTxt v).data = renderV 0 v from rfl]
  simp [h, skipWs]

/-- The backfill is the identity on records that already carry `DevOnly`. -/
theorem backfillAll_of_filled : ∀ {l : List JVal},
    (∀ r ∈ l, ∃ fs, r = JVal.obj fs ∧ lookupField fs "DevOnly" ≠ none) →
    backfillAll l = .ok l := by
  intro l
  induction l with
  | nil => intro _; rfl
  | cons a as ih =>
    intro h
    obtain ⟨fs, ha, hd⟩ := h a (by simp)
    subst ha
    have hsome : (lookupField fs "DevOnly").isSome = true := by
      cases hlf : lookupField fs "DevOnly" with
      | none => exact absurd hlf hd
      | some w => rfl
    simp only [backfillAll, backfillOne, if_pos hsome,
      ih (fun r hr => h r (by simp [hr]))]

/-- The backfill preserves `JGood`. -/
theorem backfillAll_good : ∀ {l l' : List JVal}, (∀ r ∈ l, JGood r) →
    backfillAll l = .ok l' → ∀ r ∈ l', JGood r := by
  intro l
  induction l with
  | nil =>
    intro l' _ h r hr
    cases h
    simp at hr
  | cons a as ih =>
    intro l' hg h r hr
    simp only [backfillAll] at h
    cases ha : backfillOne a with
    | error e => rw [ha] at h; exact Except.noConfusion h
    | ok a' =>
      rw [ha] at h
      cases hbs : backfillAll as with
      | error e => rw [hbs] at h; exact Except.noConfusion h
      | ok as' =>
        rw [hbs] at h
        cases h
        rcases List.mem_cons.mp hr with rfl | hmem
        · have hga := hg a (by simp)
          cases a with
          | obj fs =>
            simp only [backfillOne] at ha
            by_cases hd : (lookupField fs "DevOnly").isSome = true
            · rw [if_pos hd] at ha
              cases ha
              exact hga
            · rw [if_neg hd] at ha
              cases ha
              have hnone : lookupField fs "DevOnly" = none := by
                cases hlf : lookupField fs "DevOnly" with
                | none => rfl
                | some w => rw [hlf] at hd; simp at hd
              cases hga with
              | obj _ hv hn =>
                refine JGood.obj _ ?_ ?_
                · intro kv hkv
                  rcases List.mem_append.mp hkv with h1 | h2
                  · exact hv kv h1
                  · simp only [List.mem_singleton] at h2
                    subst h2
                    exact JGood.bool false
                · have hnot : "DevOnly" ∉ fs.map Prod.fst := by
                    intro hmem2
                    have := lookupField_isSome_mem.mpr hmem2
                    rw [hnone] at this
                    simp at this
                  simp only [List.map_append, List.map_cons, List.map_nil]
                  refine List.Nodup.append hn (List.nodup_singleton _) ?_
                  intro x hx hx2
                  simp only [List.mem_singleton] at hx2
                  subst hx2
                  exact hnot hx
          | null => simp [backfillOne] at ha
          | bool b => simp [backfillOne] at ha
          | num n => simp [backfillOne] at ha
          | nan => simp [backfillOne] at ha
          | str s => simp [backfillOne] at ha
          | arr xs => simp [backfillOne] at ha
        · exact ih (fun w hw => hg w (by simp [hw])) hbs r hmem

/-- The whole load pipeline is idempotent at the text level: re-serializing
and re-processing a successfully loaded collection of named records gives the
collection back unchanged (already backfilled, already sorted). -/
theorem processContent_idem {content : String} {l : List JVal}
    (h : processContent content = .ok l) (hnames : ∀ r ∈ l, HasName r) :
    processContent (stringifyTxt (.arr l)) = .ok l := by
  obtain ⟨elems, filled, hp, hb, hs⟩ := processContent_parts h
  have hge : ∀ y ∈ elems, JGood y := by
    have hgood := parseJson_good hp
    cases hgood with
    | arr _ hmem => exact hmem
  have hgf : ∀ r ∈ filled, JGood r := backfillAll_good hge hb
  have hperm := sortE_perm hs
  have hgl : ∀ r ∈ l, JGood r := fun r hr => hgf r (hperm.mem_iff.mp hr)
  have hdev := backfillAll_mem hb
  have hdevl : ∀ r ∈ l, ∃ fs, r = JVal.obj fs ∧ lookupField fs "DevOnly" ≠ none :=
    fun r hr => hdev r (hperm.mem_iff.mp hr)
  have hnamesF : ∀ r ∈ filled, HasName r := fun r hr =>
    hnames r (hperm.mem_iff.mpr hr)
  have hspF := sortE_eq_sortP hnamesF
  rw [hs] at hspF
  have hleq : l = sortP cmpP filled := by injection hspF
  have hchain : List.Chain' (fun a b => cmpP a b ≠ .gt) l := by
    rw [hleq]
    exact sortP_chain cmpP (fun a b hab => cmpP_gt_swap hab) filled
  have hpj : parseJson (stringifyTxt (.arr l)) = some (.arr l) :=
    stringify_parse_roundtrip (JGood.arr l hgl)
  have hbf : backfillAll l = .ok l := backfillAll_of_filled hdevl
  have hsort2 : sortE cmpRec l = .ok l := by
    rw [sortE_eq_sortP hnames, sortP_of_chain cmpP hchain]
  simp only [processContent, hpj, hbf, hsort2]

/-- Anatomy of a successful load: a concrete path was read, both remembered
paths now point at it, the selection is untouched, and the new collection is
exactly what `processContent` made of the file's text. -/
theorem loadJsonData_success {st st1 : AppState} {readFile : String → Option String}
    {dialogPick : Option String}
    (h : loadJsonData st readFile dialogPick = (st1, .success)) :
    ∃ p content, readFile p = some content ∧
      st1.currentFilePath = some p ∧ st1.lastUsedPath = some p ∧
      st1.selectedItem = st.selectedItem ∧
      processContent content = .ok st1.items := by
  simp only [loadJsonData] at h
  cases hlu : st.lastUsedPath with
  | some p0 =>
    simp only [hlu] at h
    cases hrf : readFile p0 with
    | some content =>
      simp only [hrf] at h
      cases hpc : processContent content with
      | ok newItems =>
        simp only [hpc] at h
        rw [Prod.mk.injEq] at h
        obtain ⟨h1, -⟩ := h
        subst h1
        exact ⟨p0, content, hrf, rfl, rfl, rfl, hpc⟩
      | error e =>
        simp only [hpc] at h
        rw [Prod.mk.injEq] at h
        exact LoadOutcome.noConfusion h.2
    | none =>
      simp only [hrf] at h
      cases hdp : dialogPick with
      | none =>
        simp only [hdp] at h
        rw [Prod.mk.injEq] at h
        exact LoadOutcome.noConfusion h.2
      | some sel =>
        simp only [hdp] at h
        cases hrf2 : readFile sel with
        | some content =>
          simp only [hrf2] at h
          cases hpc : processContent content with
          | ok newItems =>
            simp only [hpc] at h
            rw [Prod.mk.injEq] at h
            obtain ⟨h1, -⟩ := h
            subst h1
            exact ⟨sel, content, hrf2, rfl, rfl, rfl, hpc⟩
          | error e =>
            simp only [hpc] at h
            rw [Prod.mk.injEq] at h
            exact LoadOutcome.noConfusion h.2
        | none =>
          simp only [hrf2] at h
          rw [Prod.mk.injEq] at h
          exact LoadOutcome.noConfusion h.2
  | none =>
    simp only [hlu] at h
    cases hdp : dialogPick with
    | none =>
      simp only [hdp] at h
      rw [Prod.mk.injEq] at h
      exact LoadOutcome.noConfusion h.2
    | some sel =>
      simp only [hdp] at h
      cases hrf2 : readFile sel with
      | some content =>
        simp only [hrf2] at h
        cases hpc : processContent content with
        | ok newItems =>
          simp only [hpc] at h
          rw [Prod.mk.injEq] at h
          obtain ⟨h1, -⟩ := h
          subst h1
          exact ⟨sel, content, hrf2, rfl, rfl, rfl, hpc⟩
        | error e =>
          simp only [hpc] at h
          rw [Prod.mk.injEq] at h
          exact LoadOutcome.noConfusion h.2
      | none =>
        simp only [hrf2] at h
        rw [Prod.mk.injEq] at h
        exact LoadOutcome.noConfusion h.2

/-- C1 — confirmed (for collections of records carrying a string `Name`, the
document format's shape and what the sort's comparator needs). After any
successful load the state holds a concrete path; `saveToCurrentPath`
serializes the collection exactly as ordered — no re-sort — with
`JSON.stringify(items, null, 2)` (2-space indentation, insertion key order)
and writes it to that path; and a subsequent load that reads back exactly the
saved text succeeds and reproduces the same state: the same collection
(element-wise equal, every field of every record preserved), because the
saved collection is already backfilled and already canonically sorted. -/
theorem claim_C1_save_load_roundtrip (st : AppState)
    (readFile : String → Option String) (dialogPick : Option String)
    (st1 : AppState)
    (hload : loadJsonData st readFile dialogPick = (st1, .success))
    (hnames : ∀ r ∈ st1.items, HasName r) :
    ∃ p, st1.currentFilePath = some p ∧
      saveToCurrentPath st1 = SaveEffect.wrote p (stringifyTxt (.arr st1.items)) ∧
      ∀ (readFile2 : String → Option String) (dialogPick2 : Option String),
        readFile2 p = some (stringifyTxt (.arr st1.items)) →
        loadJsonData st1 readFile2 dialogPick2 = (st1, .success) := by
  obtain ⟨p, content, hrf, hcf, hlu, hsel, hpc⟩ := loadJsonData_success hload
  refine ⟨p, hcf, ?_, ?_⟩
  · simp [saveToCurrentPath, hcf]
  · intro readFile2 dialogPick2 hrf2
    have hidem := processContent_idem hpc hnames
    have key : AppState.mk st1.items st1.selectedItem (some p) (some p) = st1 := by
      nth_rewrite 2 [← hlu]
      rw [← hcf]
    simp only [loadJsonData, hlu, hrf2, hidem]
    rw [Prod.mk.injEq]
    exact ⟨key, rfl⟩

/-- Witness for C1 at a concrete one-record document: the load succeeds with
the expected state, every loaded record carries a string name, and the
save/load round-trip conclusion holds at that state. -/
theorem claim_C1_save_load_roundtrip_witness :
    loadJsonData (AppState.mk [] none none (some "f.json"))
        (fun _ => some "[\n  \x7b\n    \"Name\": \"a\",\n    \"DevOnly\": false\n  \x7d\n]")
        none
      = (AppState.mk [JVal.obj [("Name", JVal.str "a"), ("DevOnly", JVal.bool false)]]
          none (some "f.json") (some "f.json"), LoadOutcome.success) ∧
    (∀ r ∈ (AppState.mk [JVal.obj [("Name", JVal.str "a"), ("DevOnly", JVal.bool false)]]
          none (some "f.json") (some "f.json")).items, HasName r) ∧
    (∃ p, (AppState.mk [JVal.obj [("Name", JVal.str "a"), ("DevOnly", JVal.bool false)]]
          none (some "f.json") (some "f.json")).currentFilePath = some p ∧
      saveToCurrentPath (AppState.mk [JVal.obj [("Name", JVal.str "a"),
          ("DevOnly", JVal.bool false)]] none (some "f.json") (some "f.json"))
        = SaveEffect.wrote p (stringifyTxt (JVal.arr (AppState.mk
            [JVal.obj [("Name", JVal.str "a"), ("DevOnly", JVal.bool false)]]
            none (some "f.json") (some "f.json")).items)) ∧
      ∀ (readFile2 : String → Option String) (dialogPick2 : Option String),
        readFile2 p = some (stringifyTxt (JVal.arr (AppState.mk
            [JVal.obj [("Name", JVal.str "a"), ("DevOnly", JVal.bool false)]]
            none (some "f.json") (some "f.json")).items)) →
        loadJsonData (AppState.mk [JVal.obj [("Name", JVal.str "a"),
            ("DevOnly", JVal.bool false)]] none (some "f.json") (some "f.json"))
          readFile2 dialogPick2
          = (AppState.mk [JVal.obj [("Name", JVal.str "a"), ("DevOnly", JVal.bool false)]]
              none (some "f.json") (some "f.json"), LoadOutcome.success)) :=
  ⟨rfl, by decide,
    claim_C1_save_load_roundtrip
      (AppState.mk [] none none (some "f.json"))
      (fun _ => some "[\n  \x7b\n    \"Name\": \"a\",\n    \"DevOnly\": false\n  \x7d\n]")
      none
      (AppState.mk [JVal.obj [("Name", JVal.str "a"), ("DevOnly", JVal.bool false)]]
        none (some "f.json") (some "f.json"))
      rfl (by decide)⟩

end TPCE
